import Mathlib

/-!
Verification of the data-flow task scheduler in `src/entities/modelTaskQueue.ts`
(classes `ModelTaskQueue`, `TaskInstruction`, `PriorityPartitionedQueue`,
`InstructionMerger`, `PriorityGenerator`).

The embedding is shallow: each TypeScript class becomes a Lean structure, each
method a function on it.  Object identity of `TaskInstruction` is modelled by a
numeric id allocated in enqueue order; the mutable per-instruction sets
`dependencies` / `invertedDependencies` become global edge lists, and the
`typescript-collections` containers (`Set`, `Dictionary`, `Queue`,
`DefaultDictionary`) become lists with insertion-ordered set/association-list
semantics.
-/

namespace Sched

/-- Element count in a list of ids. -/
def cnt (x : Nat) : List Nat → Nat
  | [] => 0
  | y :: l => (if y = x then 1 else 0) + cnt x l

/-- Position of the first occurrence of `x` (length if absent). -/
def posOf (x : Nat) : List Nat → Nat
  | [] => 0
  | y :: l => if y = x then 0 else posOf x l + 1

/-- `Collections.Set.add`: append if not already present (insertion order). -/
def setAdd {α : Type} [DecidableEq α] (l : List α) (a : α) : List α :=
  if a ∈ l then l else l ++ [a]

/-- `Collections.Dictionary.getValue`: first binding of a key. -/
def alookup {α β : Type} [DecidableEq α] (k : α) : List (α × β) → Option β
  | [] => none
  | (k', v) :: rest => if k' = k then some v else alookup k rest

/-- `Collections.Dictionary.setValue`: overwrite the binding or append it. -/
def aset {α β : Type} [DecidableEq α] (l : List (α × β)) (k : α) (v : β) :
    List (α × β) :=
  match l with
  | [] => [(k, v)]
  | (k', v') :: rest => if k' = k then (k, v) :: rest else (k', v') :: aset rest k v

/-- `Collections.Dictionary.remove`: drop the binding of a key. -/
def aremove {α β : Type} [DecidableEq α] (l : List (α × β)) (k : α) :
    List (α × β) :=
  match l with
  | [] => []
  | (k', v') :: rest => if k' = k then rest else (k', v') :: aremove rest k

/-- Identifier of a model component (`ModelComponent` is an opaque token). -/
abbrev ModelComponent := Nat

/-- `ModelTaskMetadata`: read set, write set and priority of a task. -/
structure ModelTaskMetadata where
  readSet : List ModelComponent
  writeSet : List ModelComponent
  priority : Int
deriving DecidableEq, Repr

/-- `ModelTask`: opaque payload (`index`) plus metadata. -/
structure ModelTask where
  index : Nat
  metadata : ModelTaskMetadata
deriving DecidableEq, Repr

/-- Placeholder task, used only to make list indexing total. -/
def defaultTask : ModelTask := ⟨0, ⟨[], [], 0⟩⟩

/-- Task stored at instruction id `i` (ids are allocation-ordered indices). -/
def taskAt (taskOf : List ModelTask) (i : Nat) : ModelTask :=
  taskOf.getD i defaultTask

/-- `TaskInstruction.getPriority`. -/
def priorityOf (taskOf : List ModelTask) (i : Nat) : Int :=
  (taskAt taskOf i).metadata.priority

/-- `PriorityGenerator` state: lowest/highest observed priority, the next
priority to return and the frontier at which the sweep restarts. -/
structure PriorityGenerator where
  pmin : Int
  pmax : Int
  current : Int
  frontier : Int
deriving DecidableEq, Repr

/-- `new PriorityGenerator()`: all fields zero. -/
def PriorityGenerator.start : PriorityGenerator := ⟨0, 0, 0, 0⟩

/-- `PriorityGenerator.notifyPriorityExists`. -/
def notifyPriorityExists (g : PriorityGenerator) (priority : Int) :
    PriorityGenerator :=
  if g.pmax ≠ max g.pmax priority then
    ⟨min g.pmin priority, max g.pmax priority, max g.pmax priority,
     max g.pmax priority⟩
  else ⟨min g.pmin priority, max g.pmax priority, g.current, g.frontier⟩

/-- `PriorityGenerator.nextFrontier`. -/
def nextFrontier (g : PriorityGenerator) : PriorityGenerator :=
  if g.frontier > g.pmin then ⟨g.pmin, g.pmax, g.pmax, g.frontier - 1⟩
  else ⟨g.pmin, g.pmax, g.pmax, g.pmax⟩

/-- `PriorityGenerator.next`: returns the current priority and the state after
the internal update. -/
def PriorityGenerator.next (g : PriorityGenerator) :
    Int × PriorityGenerator :=
  if g.current ≤ g.frontier then (g.current, nextFrontier g)
  else (g.current, ⟨g.pmin, g.pmax, g.current - 1, g.frontier⟩)

/-- `PriorityPartitionedQueue` over instruction ids: per-priority FIFO
sub-queues, a cached count of non-empty sub-queues, and the generator. -/
structure PriorityPartitionedQueue where
  subQueues : List (Int × List Nat)
  nonEmptySubQueueCount : Nat
  priorityGen : PriorityGenerator
deriving DecidableEq, Repr

/-- `new PriorityPartitionedQueue(...)`. -/
def ppqStart : PriorityPartitionedQueue := ⟨[], 0, PriorityGenerator.start⟩

/-- Sub-queue stored at a priority (`DefaultDictionary.getValue`: empty queue
when the key is absent). -/
def getSub (qs : List (Int × List Nat)) (p : Int) : List Nat :=
  (alookup p qs).getD []

/-- `PriorityPartitionedQueue.enqueue`. -/
def ppqEnqueue (getPriority : Nat → Int) (q : PriorityPartitionedQueue)
    (v : Nat) : PriorityPartitionedQueue :=
  let priority := getPriority v
  let subQueue := getSub q.subQueues priority
  let q1 :=
    if subQueue = [] then
      { q with nonEmptySubQueueCount := q.nonEmptySubQueueCount + 1,
               priorityGen := notifyPriorityExists q.priorityGen priority }
    else q
  { q1 with subQueues := aset q1.subQueues priority (subQueue ++ [v]) }

/-- The do-while loop inside `PriorityPartitionedQueue.dequeue`: advance the
generator until it lands on a non-empty sub-queue.  The source loop is
unbounded; here it carries fuel, and the termination theorem shows the fuel
below is never exhausted on reachable states. -/
def selectLoop (qs : List (Int × List Nat)) :
    Nat → PriorityGenerator → Option (Int × PriorityGenerator)
  | 0, _ => none
  | n + 1, g =>
    let (priority, g') := g.next
    if getSub qs priority = [] then selectLoop qs n g'
    else some (priority, g')

/-- Fuel bound for `selectLoop`, a function of the generator window. -/
def ppqFuel (g : PriorityGenerator) : Nat :=
  ((g.pmax - g.pmin).toNat + 2) * ((g.pmax - g.pmin).toNat + 2)

/-- `PriorityPartitionedQueue.dequeue`. -/
def ppqDequeue (q : PriorityPartitionedQueue) :
    Option Nat × PriorityPartitionedQueue :=
  if q.nonEmptySubQueueCount = 0 then (none, q)
  else
    match selectLoop q.subQueues (ppqFuel q.priorityGen) q.priorityGen with
    | none => (none, q)
    | some (priority, g') =>
      match getSub q.subQueues priority with
      | [] => (none, q)
      | x :: rest =>
        (some x,
         { subQueues := aset q.subQueues priority rest,
           nonEmptySubQueueCount :=
             if rest = [] then q.nonEmptySubQueueCount - 1
             else q.nonEmptySubQueueCount,
           priorityGen := g' })

/-- Number of copies of instruction `x` stored anywhere in the queue. -/
def ppqCount (q : PriorityPartitionedQueue) (x : Nat) : Nat :=
  (q.subQueues.map (fun e => cnt x e.2)).sum

/-- `TaskRewriter` capability record. -/
structure TaskRewriter where
  isOfInterest : ModelTask → Bool
  maybeRewrite : ModelTask → ModelTask → Option ModelTask

/-- `InstructionMerger.hasEmptyIntersection` (flag-setting forEach). -/
def hasEmptyIntersection (first second : List ModelComponent) : Bool :=
  first.foldl (fun acc element => if element ∈ second then false else acc) true

/-- `InstructionMerger.introduceInstruction`: add the instruction to the
interest set of every rewriter whose `isOfInterest` accepts its task. -/
def introduceInstruction (rewriters : List TaskRewriter)
    (interestSets : List (List Nat)) (task : ModelTask) (i : Nat) :
    List (List Nat) :=
  List.zipWith
    (fun r iset => if r.isOfInterest task then setAdd iset i else iset)
    rewriters interestSets

/-- `ModelTaskQueue` state.  `deps` holds `(i, j)` when `j` is in
`dependencies(i)`; `invDeps` holds `(i, j)` when `j` is in
`invertedDependencies(i)`; `latest` is `latestComponentStateMap`; `elig` is
`eligibleInstructions`.  `dequeuedList` records the ids handed out by
`dequeue`, in order (the observable output history). -/
structure ModelTaskQueue where
  nextId : Nat
  taskOf : List ModelTask
  deps : List (Nat × Nat)
  invDeps : List (Nat × Nat)
  latest : List (ModelComponent × Nat)
  elig : PriorityPartitionedQueue
  rewriters : List TaskRewriter
  interestSets : List (List Nat)
  dequeuedList : List Nat

/-- `dependencies(i)` recovered from the edge list, in insertion order. -/
def depsOf (d : List (Nat × Nat)) (i : Nat) : List Nat :=
  d.filterMap (fun e => if e.1 = i then some e.2 else none)

/-- `invertedDependencies(i)` recovered from the edge list. -/
def invDepsOf (d : List (Nat × Nat)) (i : Nat) : List Nat :=
  d.filterMap (fun e => if e.1 = i then some e.2 else none)

/-- `Collections.Set.add` on an edge list. -/
def edgeAdd (d : List (Nat × Nat)) (e : Nat × Nat) : List (Nat × Nat) :=
  setAdd d e

/-- `new ModelTaskQueue()`. -/
def startQueue : ModelTaskQueue :=
  ⟨0, [], [], [], [], ppqStart, [], [], []⟩

/-- `ModelTaskQueue.enqueue`. -/
def enqueue (s : ModelTaskQueue) (task : ModelTask) : ModelTaskQueue :=
  let i := s.nextId
  let ed := task.metadata.readSet.foldl
    (fun (acc : List (Nat × Nat) × List (Nat × Nat)) component =>
      match alookup component s.latest with
      | some dependency =>
        (edgeAdd acc.1 (i, dependency), edgeAdd acc.2 (dependency, i))
      | none => acc)
    (s.deps, s.invDeps)
  let latest := task.metadata.writeSet.foldl (fun m c => aset m c i) s.latest
  let taskOf := s.taskOf ++ [task]
  let elig :=
    if depsOf ed.1 i = [] then ppqEnqueue (priorityOf taskOf) s.elig i
    else s.elig
  let interestSets := introduceInstruction s.rewriters s.interestSets task i
  { nextId := i + 1, taskOf := taskOf, deps := ed.1, invDeps := ed.2,
    latest := latest, elig := elig, rewriters := s.rewriters,
    interestSets := interestSets, dequeuedList := s.dequeuedList }

/-- The forEach over `invertedDependencies` inside `ModelTaskQueue.complete`:
sever the edge into each dependent and enqueue dependents that become
eligible. -/
def completeFold (taskOf : List ModelTask) (i : Nat) (l : List Nat)
    (d : List (Nat × Nat)) (q : PriorityPartitionedQueue) :
    List (Nat × Nat) × PriorityPartitionedQueue :=
  l.foldl
    (fun acc j =>
      let d' := acc.1.erase (j, i)
      if depsOf d' j = [] then (d', ppqEnqueue (priorityOf taskOf) acc.2 j)
      else (d', acc.2))
    (d, q)

/-- `ModelTaskQueue.complete`. -/
def complete (s : ModelTaskQueue) (i : Nat) : ModelTaskQueue :=
  let interestSets := s.interestSets.map (fun iset => iset.erase i)
  let dq := completeFold s.taskOf i (invDepsOf s.invDeps i) s.deps s.elig
  let invDeps := s.invDeps.filter (fun e => decide (e.1 ≠ i))
  let latest := (taskAt s.taskOf i).metadata.writeSet.foldl
    (fun m c =>
      match alookup c m with
      | some v => if v = i then aremove m c else m
      | none => m)
    s.latest
  { s with deps := dq.1, invDeps := invDeps, latest := latest, elig := dq.2,
           interestSets := interestSets }

/-- `ModelTaskQueue.dequeue`. -/
def dequeue (s : ModelTaskQueue) : Option ModelTask × ModelTaskQueue :=
  match ppqDequeue s.elig with
  | (none, q) => (none, { s with elig := q })
  | (some i, q) =>
    let s1 := complete { s with elig := q } i
    (some (taskAt s.taskOf i),
     { s1 with dequeuedList := s1.dequeuedList ++ [i] })

/-- `ModelTaskQueue.registerRewriter`. -/
def registerRewriter (s : ModelTaskQueue) (r : TaskRewriter) : ModelTaskQueue :=
  { s with rewriters := s.rewriters ++ [r],
           interestSets := s.interestSets ++ [[]] }

/-- `InstructionMerger.canMergeReadAfterWrite` (flag-setting forEach over
`invertedDependencies(first)`; the early `return` inside the callback is a
continue). -/
def canMergeReadAfterWrite (s : ModelTaskQueue) (first second : Nat) : Bool :=
  (invDepsOf s.invDeps first).foldl
    (fun canMerge dependentInstr =>
      if dependentInstr = second then canMerge
      else
        if ¬ hasEmptyIntersection
              (taskAt s.taskOf dependentInstr).metadata.readSet
              (taskAt s.taskOf second).metadata.writeSet
            ∨ (second, dependentInstr) ∈ s.deps
        then false
        else canMerge)
    true

/-- One operation of the scheduler's public API. -/
inductive SchedOp where
  | enqueueOp (t : ModelTask)
  | dequeueOp
  | registerOp (r : TaskRewriter)

/-- One API call: next state and the value returned by the call. -/
def step (s : ModelTaskQueue) : SchedOp → ModelTaskQueue × Option ModelTask
  | .enqueueOp t => (enqueue s t, none)
  | .dequeueOp => ((dequeue s).2, (dequeue s).1)
  | .registerOp r => (registerRewriter s r, none)

/-- State after a trace of operations starting from `s`. -/
def runFrom (s : ModelTaskQueue) (ops : List SchedOp) : ModelTaskQueue :=
  ops.foldl (fun s' op => (step s' op).1) s

/-- State after a trace of operations on a fresh queue. -/
def run (ops : List SchedOp) : ModelTaskQueue := runFrom startQueue ops

/-- The values returned by each call of a trace on a fresh queue. -/
def runOutputs (ops : List SchedOp) : List (Option ModelTask) :=
  (ops.foldl
    (fun (acc : ModelTaskQueue × List (Option ModelTask)) op =>
      ((step acc.1 op).1, acc.2 ++ [(step acc.1 op).2]))
    (startQueue, [])).2

/-- A state is reachable when some trace of API calls produces it. -/
def Reachable (s : ModelTaskQueue) : Prop := ∃ ops, run ops = s

/-! ### Lemmas about the container helpers -/

theorem cnt_append (x : Nat) (l1 l2 : List Nat) :
    cnt x (l1 ++ l2) = cnt x l1 + cnt x l2 := by
  induction l1 with
  | nil => simp [cnt]
  | cons y l ih => simp [cnt, ih]; omega

theorem cnt_eq_zero {x : Nat} {l : List Nat} : cnt x l = 0 ↔ x ∉ l := by
  induction l with
  | nil => simp [cnt]
  | cons y l ih =>
    by_cases h : y = x <;> simp [cnt, h, ih] <;> omega

theorem posOf_append_of_mem {x : Nat} {l1 : List Nat} (h : x ∈ l1)
    (l2 : List Nat) : posOf x (l1 ++ l2) = posOf x l1 := by
  induction l1 with
  | nil => cases h
  | cons y l ih =>
    by_cases hy : y = x
    · simp [posOf, hy]
    · have hx : x ∈ l := by
        rcases List.mem_cons.mp h with h' | h'
        · exact absurd h'.symm hy
        · exact h'
      simp [posOf, hy, ih hx]

theorem posOf_lt_length {x : Nat} {l : List Nat} (h : x ∈ l) :
    posOf x l < l.length := by
  induction l with
  | nil => cases h
  | cons y l ih =>
    by_cases hy : y = x
    · simp [posOf, hy]
    · have hx : x ∈ l := by
        rcases List.mem_cons.mp h with h' | h'
        · exact absurd h'.symm hy
        · exact h'
      simpa [posOf, hy] using ih hx

theorem posOf_append_of_not_mem {x : Nat} {l1 : List Nat} (h : x ∉ l1)
    (l2 : List Nat) : posOf x (l1 ++ l2) = l1.length + posOf x l2 := by
  induction l1 with
  | nil => simp
  | cons y l ih =>
    have hy : y ≠ x := fun hc => h (hc ▸ List.mem_cons_self y l)
    have hx : x ∉ l := fun hc => h (List.mem_cons_of_mem y hc)
    simp [posOf, hy, ih hx]; omega

theorem mem_setAdd {α : Type} [DecidableEq α] {l : List α} {a b : α} :
    a ∈ setAdd l b ↔ a ∈ l ∨ a = b := by
  by_cases h : b ∈ l
  · simp only [setAdd, if_pos h]
    constructor
    · exact Or.inl
    · rintro (h' | rfl) <;> [exact h'; exact h]
  · simp [setAdd, if_neg h]

theorem nodup_setAdd {α : Type} [DecidableEq α] {l : List α} (a : α)
    (h : l.Nodup) : (setAdd l a).Nodup := by
  by_cases ha : a ∈ l
  · simpa [setAdd, ha] using h
  · rw [setAdd, if_neg ha]
    refine List.Nodup.append h (List.nodup_singleton a) ?_
    intro x hx hxa
    rw [List.mem_singleton] at hxa
    exact ha (hxa ▸ hx)

theorem mem_of_alookup {α β : Type} [DecidableEq α] {l : List (α × β)}
    {k : α} {v : β} (h : alookup k l = some v) : (k, v) ∈ l := by
  induction l with
  | nil => simp [alookup] at h
  | cons e rest ih =>
    obtain ⟨k', v'⟩ := e
    by_cases he : k' = k
    · subst he
      simp only [alookup, if_pos rfl] at h
      cases h
      exact List.mem_cons_self _ _
    · simp only [alookup, if_neg he] at h
      exact List.mem_cons_of_mem _ (ih h)

theorem alookup_of_mem_nodup {α β : Type} [DecidableEq α] {l : List (α × β)}
    {k : α} {v : β} (hn : (l.map Prod.fst).Nodup) (h : (k, v) ∈ l) :
    alookup k l = some v := by
  induction l with
  | nil => cases h
  | cons e rest ih =>
    obtain ⟨k', v'⟩ := e
    rcases List.mem_cons.mp h with h' | h'
    · cases h'
      simp [alookup]
    · have hk : k' ≠ k := by
        intro hc
        subst hc
        exact (List.nodup_cons.mp hn).1 (List.mem_map.mpr ⟨(k', v), h', rfl⟩)
      simp [alookup, hk, ih (List.nodup_cons.mp hn).2 h']

theorem alookup_aset_self {α β : Type} [DecidableEq α] (l : List (α × β))
    (k : α) (v : β) : alookup k (aset l k v) = some v := by
  induction l with
  | nil => simp [aset, alookup]
  | cons e rest ih =>
    obtain ⟨k', v'⟩ := e
    by_cases hk : k' = k <;> simp [aset, alookup, hk, ih]

theorem alookup_aset_ne {α β : Type} [DecidableEq α] (l : List (α × β))
    {k k' : α} (v : β) (h : k' ≠ k) :
    alookup k' (aset l k v) = alookup k' l := by
  induction l with
  | nil => simp [aset, alookup, Ne.symm h]
  | cons e rest ih =>
    obtain ⟨k0, v0⟩ := e
    by_cases hk : k0 = k
    · subst hk
      simp [aset, alookup, Ne.symm h]
    · by_cases hk' : k0 = k' <;> simp [aset, alookup, hk, hk', ih, h]

theorem mem_aset {α β : Type} [DecidableEq α] {l : List (α × β)}
    {k : α} {v : β} {e : α × β} (h : e ∈ aset l k v) :
    e = (k, v) ∨ e ∈ l := by
  induction l with
  | nil => simpa [aset] using h
  | cons e0 rest ih =>
    obtain ⟨k0, v0⟩ := e0
    by_cases hk : k0 = k
    · simp only [aset, if_pos hk] at h
      rcases List.mem_cons.mp h with h' | h'
      · exact Or.inl h'
      · exact Or.inr (List.mem_cons_of_mem _ h')
    · simp only [aset, if_neg hk] at h
      rcases List.mem_cons.mp h with h' | h'
      · exact Or.inr (h' ▸ List.mem_cons_self _ _)
      · rcases ih h' with h'' | h''
        · exact Or.inl h''
        · exact Or.inr (List.mem_cons_of_mem _ h'')

theorem keys_aset {α β : Type} [DecidableEq α] (l : List (α × β)) (k : α)
    (v : β) :
    ((aset l k v).map Prod.fst) =
      if k ∈ l.map Prod.fst then l.map Prod.fst else l.map Prod.fst ++ [k] := by
  induction l with
  | nil => simp [aset]
  | cons e rest ih =>
    obtain ⟨k0, v0⟩ := e
    by_cases hk : k0 = k
    · subst hk
      simp [aset]
    · have : k ∈ List.map Prod.fst ((k0, v0) :: rest) ↔
          k ∈ List.map Prod.fst rest := by
        simp [fun hc : k0 = k => hk hc, eq_comm]
        intro hc
        exact absurd hc.symm hk
      by_cases hm : k ∈ rest.map Prod.fst
      · simp [aset, hk, ih, hm, this.mpr hm]
      · have hm' : k ∉ List.map Prod.fst ((k0, v0) :: rest) := by
          intro hc
          exact hm (this.mp hc)
        simp only [aset, if_neg hk, List.map_cons, if_neg hm'] at *
        simp [ih, hm, Ne.symm hk]

theorem keysNodup_aset {α β : Type} [DecidableEq α] {l : List (α × β)}
    (k : α) (v : β) (h : (l.map Prod.fst).Nodup) :
    ((aset l k v).map Prod.fst).Nodup := by
  rw [keys_aset]
  by_cases hm : k ∈ l.map Prod.fst
  · simpa [hm] using h
  · rw [if_neg hm]
    refine List.Nodup.append h (List.nodup_singleton k) ?_
    intro x hx hxk
    rw [List.mem_singleton] at hxk
    exact hm (hxk ▸ hx)

theorem alookup_eq_none_of_not_mem_keys {α β : Type} [DecidableEq α]
    {l : List (α × β)} {k : α} (h : k ∉ l.map Prod.fst) :
    alookup k l = none := by
  induction l with
  | nil => simp [alookup]
  | cons e rest ih =>
    obtain ⟨k0, v0⟩ := e
    have hk : k0 ≠ k := by
      intro hc
      exact h (List.mem_map.mpr ⟨(k0, v0), List.mem_cons_self _ _, hc⟩)
    have hrest : k ∉ rest.map Prod.fst := by
      intro hc
      exact h (by simpa using Or.inr hc)
    simp [alookup, hk, ih hrest]

theorem alookup_aremove_self {α β : Type} [DecidableEq α] {l : List (α × β)}
    (k : α) (hn : (l.map Prod.fst).Nodup) :
    alookup k (aremove l k) = none := by
  induction l with
  | nil => simp [aremove, alookup]
  | cons e rest ih =>
    obtain ⟨k0, v0⟩ := e
    by_cases hk : k0 = k
    · subst hk
      simp only [aremove, if_pos rfl]
      exact alookup_eq_none_of_not_mem_keys (by simpa using (List.nodup_cons.mp hn).1)
    · simp [aremove, hk, alookup, ih (List.nodup_cons.mp hn).2]

theorem alookup_aremove_ne {α β : Type} [DecidableEq α] (l : List (α × β))
    {k k' : α} (h : k' ≠ k) :
    alookup k' (aremove l k) = alookup k' l := by
  induction l with
  | nil => simp [aremove]
  | cons e rest ih =>
    obtain ⟨k0, v0⟩ := e
    by_cases hk : k0 = k
    · subst hk
      simp [aremove, alookup, Ne.symm h]
    · by_cases hk' : k0 = k' <;> simp [aremove, alookup, hk, hk', ih, h]

theorem mem_depsOf {d : List (Nat × Nat)} {i j : Nat} :
    j ∈ depsOf d i ↔ (i, j) ∈ d := by
  constructor
  · intro h
    rcases List.mem_filterMap.mp h with ⟨⟨a1, a2⟩, ha, hf⟩
    by_cases h1 : a1 = i
    · subst h1
      simp only [if_pos rfl] at hf
      cases hf
      exact ha
    · simp [h1] at hf
  · intro h
    exact List.mem_filterMap.mpr ⟨(i, j), h, by simp⟩

theorem depsOf_eq_nil {d : List (Nat × Nat)} {i : Nat} :
    depsOf d i = [] ↔ ∀ j, (i, j) ∉ d := by
  rw [List.eq_nil_iff_forall_not_mem]
  constructor
  · intro h j hj
    exact h j (mem_depsOf.mpr hj)
  · intro h j hj
    exact h j (mem_depsOf.mp hj)

theorem mem_invDepsOf {d : List (Nat × Nat)} {i j : Nat} :
    j ∈ invDepsOf d i ↔ (i, j) ∈ d := mem_depsOf

theorem depsOf_erase_of_ne {d : List (Nat × Nat)} {e : Nat × Nat} {y : Nat}
    (h : e.1 ≠ y) : depsOf (d.erase e) y = depsOf d y := by
  induction d with
  | nil => simp
  | cons a d ih =>
    by_cases hae : a = e
    · subst hae
      rw [List.erase_cons_head]
      obtain ⟨a1, a2⟩ := a
      simp only at h
      simp [depsOf, List.filterMap_cons, h]
    · rw [List.erase_cons_tail]
      · simp only [depsOf, List.filterMap_cons] at *
        cases hf : (if a.1 = y then some a.2 else none) <;> simp [hf, ih]
      · simpa using hae

theorem nodup_depsOf {d : List (Nat × Nat)} (i : Nat) (h : d.Nodup) :
    (depsOf d i).Nodup := by
  induction d with
  | nil => simp [depsOf]
  | cons a d ih =>
    obtain ⟨ha, hd⟩ := List.nodup_cons.mp h
    obtain ⟨a1, a2⟩ := a
    by_cases h1 : a1 = i
    · subst h1
      simp only [depsOf, List.filterMap_cons, if_pos rfl]
      refine List.nodup_cons.mpr ⟨?_, ih hd⟩
      intro hc
      exact ha (mem_depsOf.mp hc)
    · simpa only [depsOf, List.filterMap_cons, if_neg h1] using ih hd

theorem nodup_edgeAdd {d : List (Nat × Nat)} (e : Nat × Nat) (h : d.Nodup) :
    (edgeAdd d e).Nodup := nodup_setAdd e h

theorem mem_edgeAdd {d : List (Nat × Nat)} {e e' : Nat × Nat} :
    e' ∈ edgeAdd d e ↔ e' ∈ d ∨ e' = e := mem_setAdd

/-- Number of non-empty sub-queues actually stored in the dictionary. -/
def neCount : List (Int × List Nat) → Nat
  | [] => 0
  | e :: rest => (if e.2 = [] then 0 else 1) + neCount rest

theorem getSub_cons_self (k : Int) (w : List Nat)
    (rest : List (Int × List Nat)) : getSub ((k, w) :: rest) k = w := by
  simp [getSub, alookup]

theorem getSub_cons_ne {k p : Int} (w : List Nat)
    (rest : List (Int × List Nat)) (h : k ≠ p) :
    getSub ((k, w) :: rest) p = getSub rest p := by
  simp [getSub, alookup, h]

theorem aset_cons_self (k : Int) (w l' : List Nat)
    (rest : List (Int × List Nat)) :
    aset ((k, w) :: rest) k l' = (k, l') :: rest := by
  simp [aset]

theorem aset_cons_ne {k p : Int} (w l' : List Nat)
    (rest : List (Int × List Nat)) (h : k ≠ p) :
    aset ((k, w) :: rest) p l' = (k, w) :: aset rest p l' := by
  simp [aset, h]

theorem neCount_aset (qs : List (Int × List Nat)) (p : Int) (l' : List Nat) :
    neCount (aset qs p l') + (if getSub qs p = [] then 0 else 1) =
      neCount qs + (if l' = [] then 0 else 1) := by
  induction qs with
  | nil => simp [neCount, aset, getSub, alookup]
  | cons e rest ih =>
    obtain ⟨k, w⟩ := e
    by_cases hk : k = p
    · subst hk
      rw [aset_cons_self, getSub_cons_self]
      simp only [neCount]
      omega
    · rw [aset_cons_ne _ _ _ hk, getSub_cons_ne _ _ hk]
      simp only [neCount]
      omega

theorem neCount_pos {qs : List (Int × List Nat)} (h : neCount qs ≠ 0) :
    ∃ e ∈ qs, e.2 ≠ [] := by
  induction qs with
  | nil => simp [neCount] at h
  | cons e rest ih =>
    by_cases he : e.2 = []
    · simp only [neCount, if_pos he, Nat.zero_add] at h
      rcases ih h with ⟨e', he', hne⟩
      exact ⟨e', List.mem_cons_of_mem _ he', hne⟩
    · exact ⟨e, List.mem_cons_self _ _, he⟩

theorem sumcnt_aset (qs : List (Int × List Nat)) (p : Int) (l' : List Nat)
    (x : Nat) :
    ((aset qs p l').map (fun e => cnt x e.2)).sum + cnt x (getSub qs p) =
      (qs.map (fun e => cnt x e.2)).sum + cnt x l' := by
  induction qs with
  | nil => simp [aset, getSub, alookup, cnt]
  | cons e rest ih =>
    obtain ⟨k, w⟩ := e
    by_cases hk : k = p
    · subst hk
      rw [aset_cons_self, getSub_cons_self]
      simp only [List.map_cons, List.sum_cons]
      omega
    · rw [aset_cons_ne _ _ _ hk, getSub_cons_ne _ _ hk]
      simp only [List.map_cons, List.sum_cons]
      omega

theorem getSub_aset_self (qs : List (Int × List Nat)) (p : Int)
    (l' : List Nat) : getSub (aset qs p l') p = l' := by
  simp [getSub, alookup_aset_self]

theorem getSub_aset_ne (qs : List (Int × List Nat)) {p p' : Int}
    (l' : List Nat) (h : p' ≠ p) : getSub (aset qs p l') p' = getSub qs p' := by
  simp [getSub, alookup_aset_ne _ _ h]

theorem aremove_sublist {α β : Type} [DecidableEq α] (l : List (α × β))
    (k : α) : (aremove l k).Sublist l := by
  induction l with
  | nil => simp [aremove]
  | cons e rest ih =>
    obtain ⟨k0, v0⟩ := e
    by_cases hk : k0 = k
    · simpa [aremove, hk] using List.sublist_cons _ _
    · simpa [aremove, hk] using ih.cons₂ (k0, v0)

theorem keysNodup_aremove {α β : Type} [DecidableEq α] {l : List (α × β)}
    (k : α) (hn : (l.map Prod.fst).Nodup) :
    ((aremove l k).map Prod.fst).Nodup :=
  hn.sublist ((aremove_sublist l k).map Prod.fst)

/-! ### Priority generator: invariant, termination measure -/

/-- Structural invariant of the generator: the frontier lies between the
observed minimum and the current pointer, which lies below the maximum. -/
def PGInv (g : PriorityGenerator) : Prop :=
  g.pmin ≤ g.frontier ∧ g.frontier ≤ g.current ∧ g.current ≤ g.pmax

theorem pgInv_start : PGInv PriorityGenerator.start := by
  refine ⟨?_, ?_, ?_⟩ <;> simp [PriorityGenerator.start]

theorem pgInv_notify {g : PriorityGenerator} (p : Int) (h : PGInv g) :
    PGInv (notifyPriorityExists g p) := by
  unfold PGInv notifyPriorityExists at *
  split_ifs <;> simp_all <;> omega

theorem notify_window (g : PriorityGenerator) (p : Int) :
    (notifyPriorityExists g p).pmin ≤ g.pmin ∧
      g.pmax ≤ (notifyPriorityExists g p).pmax ∧
      (notifyPriorityExists g p).pmin ≤ p ∧
      p ≤ (notifyPriorityExists g p).pmax := by
  unfold notifyPriorityExists
  split_ifs <;> refine ⟨?_, ?_, ?_, ?_⟩ <;> simp <;> omega

theorem next_window (g : PriorityGenerator) :
    (g.next).2.pmin = g.pmin ∧ (g.next).2.pmax = g.pmax := by
  unfold PriorityGenerator.next nextFrontier
  split_ifs <;> simp

theorem pgInv_next {g : PriorityGenerator} (h : PGInv g) :
    PGInv (g.next).2 := by
  unfold PGInv PriorityGenerator.next nextFrontier at *
  split_ifs <;> simp_all <;> omega

/-- Number of frontier sweeps remaining before the sweep that emits `p`. -/
def passK (g : PriorityGenerator) (p : Int) : Nat :=
  if g.frontier ≤ p ∧ p ≤ g.current then 0
  else if p < g.frontier then (g.frontier - p).toNat
  else if g.pmin < g.frontier then 1
  else 1 + (g.pmax - p).toNat

/-- Ranking function bounding the number of `next` calls before `p` is
emitted. -/
def pgMeasure (g : PriorityGenerator) (p : Int) : Nat :=
  passK g p * ((g.pmax - g.pmin).toNat + 2) + (g.current - g.frontier).toNat

theorem pgMeasure_next {g : PriorityGenerator} {p : Int} (h : PGInv g)
    (h1 : g.pmin ≤ p) (h2 : p ≤ g.pmax) (hne : (g.next).1 ≠ p) :
    pgMeasure (g.next).2 p < pgMeasure g p := by
  obtain ⟨hA, hB, hC⟩ := h
  by_cases hcf : g.current ≤ g.frontier
  · -- pass-end step: the frontier advances and the measure drops a block
    have hemit : (g.next).1 = g.current := by
      unfold PriorityGenerator.next
      rw [if_pos hcf]
    have hcur : g.current = g.frontier := le_antisymm hcf hB
    have hg' : (g.next).2 = nextFrontier g := by
      unfold PriorityGenerator.next
      rw [if_pos hcf]
    rw [hg']
    have hK : passK (nextFrontier g) p + 1 ≤ passK g p := by
      unfold passK nextFrontier
      rw [hemit] at hne
      split_ifs <;> simp_all <;> omega
    have hwin : (nextFrontier g).pmax - (nextFrontier g).pmin =
        g.pmax - g.pmin := by
      unfold nextFrontier
      split_ifs <;> simp
    have hr : ((nextFrontier g).current - (nextFrontier g).frontier).toNat <
        (g.pmax - g.pmin).toNat + 2 := by
      unfold nextFrontier
      split_ifs <;> simp <;> omega
    unfold pgMeasure
    rw [hwin]
    calc passK (nextFrontier g) p * ((g.pmax - g.pmin).toNat + 2) +
          ((nextFrontier g).current - (nextFrontier g).frontier).toNat
        < passK (nextFrontier g) p * ((g.pmax - g.pmin).toNat + 2) +
          ((g.pmax - g.pmin).toNat + 2) := Nat.add_lt_add_left hr _
      _ = (passK (nextFrontier g) p + 1) * ((g.pmax - g.pmin).toNat + 2) := by
          rw [Nat.succ_mul]
      _ ≤ passK g p * ((g.pmax - g.pmin).toNat + 2) :=
          Nat.mul_le_mul_right _ hK
      _ ≤ passK g p * ((g.pmax - g.pmin).toNat + 2) +
          (g.current - g.frontier).toNat := Nat.le_add_right _ _
  · -- in-pass step: the current pointer decreases by one
    have hemit : (g.next).1 = g.current := by
      unfold PriorityGenerator.next
      rw [if_neg hcf]
    have hg' : (g.next).2 = ⟨g.pmin, g.pmax, g.current - 1, g.frontier⟩ := by
      unfold PriorityGenerator.next
      rw [if_neg hcf]
    rw [hg']
    rw [hemit] at hne
    have hK : passK ⟨g.pmin, g.pmax, g.current - 1, g.frontier⟩ p =
        passK g p := by
      unfold passK
      split_ifs <;> simp_all <;> omega
    have hr : (g.current - 1 - g.frontier).toNat <
        (g.current - g.frontier).toNat := by omega
    unfold pgMeasure
    simp only [hK]
    exact Nat.add_lt_add_left hr _

theorem pgMeasure_lt_fuel {g : PriorityGenerator} {p : Int} (h : PGInv g)
    (h1 : g.pmin ≤ p) (h2 : p ≤ g.pmax) : pgMeasure g p < ppqFuel g := by
  obtain ⟨hA, hB, hC⟩ := h
  have hK : passK g p ≤ (g.pmax - g.pmin).toNat + 1 := by
    unfold passK
    split_ifs <;> omega
  have hr : (g.current - g.frontier).toNat < (g.pmax - g.pmin).toNat + 2 := by
    omega
  unfold pgMeasure ppqFuel
  calc passK g p * ((g.pmax - g.pmin).toNat + 2) +
        (g.current - g.frontier).toNat
      < passK g p * ((g.pmax - g.pmin).toNat + 2) +
        ((g.pmax - g.pmin).toNat + 2) := Nat.add_lt_add_left hr _
    _ = (passK g p + 1) * ((g.pmax - g.pmin).toNat + 2) := by rw [Nat.succ_mul]
    _ ≤ ((g.pmax - g.pmin).toNat + 2) * ((g.pmax - g.pmin).toNat + 2) :=
        Nat.mul_le_mul_right _ (by omega)

theorem selectLoop_sound {qs : List (Int × List Nat)} :
    ∀ (fuel : Nat) (g : PriorityGenerator) {p : Int} {g' : PriorityGenerator},
      PGInv g → selectLoop qs fuel g = some (p, g') →
      getSub qs p ≠ [] ∧ PGInv g' ∧ g'.pmin = g.pmin ∧ g'.pmax = g.pmax := by
  intro fuel
  induction fuel with
  | zero => intro g p g' _ h; simp [selectLoop] at h
  | succ n ih =>
    intro g p g' hInv h
    rcases hgn : g.next with ⟨pr, gn⟩
    have hInv' : PGInv gn := by
      have h2 := pgInv_next hInv
      rw [hgn] at h2
      exact h2
    have hw : gn.pmin = g.pmin ∧ gn.pmax = g.pmax := by
      have h2 := next_window g
      rw [hgn] at h2
      exact h2
    simp only [selectLoop, hgn] at h
    by_cases hsub : getSub qs pr = []
    · rw [if_pos hsub] at h
      obtain ⟨hg1, hg2, hg3, hg4⟩ := ih gn hInv' h
      exact ⟨hg1, hg2, by rw [hg3, hw.1], by rw [hg4, hw.2]⟩
    · rw [if_neg hsub] at h
      have hin := Option.some.inj h
      have hpr : pr = p := congrArg Prod.fst hin
      have hgn' : gn = g' := congrArg Prod.snd hin
      subst hpr
      subst hgn'
      exact ⟨hsub, hInv', hw.1, hw.2⟩

theorem selectLoop_isSome {qs : List (Int × List Nat)} :
    ∀ (fuel : Nat) (g : PriorityGenerator) {p : Int},
      PGInv g → g.pmin ≤ p → p ≤ g.pmax → getSub qs p ≠ [] →
      pgMeasure g p < fuel → (selectLoop qs fuel g).isSome := by
  intro fuel
  induction fuel with
  | zero => intro g p _ _ _ _ hm; omega
  | succ n ih =>
    intro g p hInv h1 h2 hsubp hm
    rcases hgn : g.next with ⟨pr, gn⟩
    have hInv' : PGInv gn := by
      have hx := pgInv_next hInv
      rw [hgn] at hx
      exact hx
    have hw : gn.pmin = g.pmin ∧ gn.pmax = g.pmax := by
      have hx := next_window g
      rw [hgn] at hx
      exact hx
    simp only [selectLoop, hgn]
    by_cases hsub : getSub qs pr = []
    · rw [if_pos hsub]
      have hne : (g.next).1 ≠ p := by
        rw [hgn]
        intro hc
        exact hsubp (hc ▸ hsub)
      have hm' : pgMeasure gn p < n := by
        have hx := pgMeasure_next hInv h1 h2 hne
        rw [hgn] at hx
        have hx' : pgMeasure gn p < pgMeasure g p := hx
        omega
      exact ih gn hInv' (hw.1 ▸ h1) (hw.2 ▸ h2) hsubp hm'
    · rw [if_neg hsub]
      simp

/-! ### Priority-partitioned queue: operation specifications -/

theorem ppqEnqueue_spec (gp : Nat → Int) (q : PriorityPartitionedQueue)
    (v : Nat) :
    (ppqEnqueue gp q v).subQueues =
        aset q.subQueues (gp v) (getSub q.subQueues (gp v) ++ [v]) ∧
      (ppqEnqueue gp q v).nonEmptySubQueueCount =
        (if getSub q.subQueues (gp v) = [] then q.nonEmptySubQueueCount + 1
         else q.nonEmptySubQueueCount) ∧
      (ppqEnqueue gp q v).priorityGen =
        (if getSub q.subQueues (gp v) = []
         then notifyPriorityExists q.priorityGen (gp v)
         else q.priorityGen) := by
  unfold ppqEnqueue
  by_cases h : getSub q.subQueues (gp v) = [] <;> simp [h]

theorem ppqEnqueue_count (gp : Nat → Int) (q : PriorityPartitionedQueue)
    (v x : Nat) :
    ppqCount (ppqEnqueue gp q v) x =
      ppqCount q x + (if v = x then 1 else 0) := by
  obtain ⟨hsub, _, _⟩ := ppqEnqueue_spec gp q v
  unfold ppqCount
  rw [hsub]
  have h := sumcnt_aset q.subQueues (gp v) (getSub q.subQueues (gp v) ++ [v]) x
  rw [cnt_append] at h
  simp only [cnt] at h
  omega

theorem ppqEnqueue_counter (gp : Nat → Int) (q : PriorityPartitionedQueue)
    (v : Nat) (hc : q.nonEmptySubQueueCount = neCount q.subQueues) :
    (ppqEnqueue gp q v).nonEmptySubQueueCount =
      neCount (ppqEnqueue gp q v).subQueues := by
  obtain ⟨hsub, hcnt, _⟩ := ppqEnqueue_spec gp q v
  rw [hsub, hcnt]
  have h := neCount_aset q.subQueues (gp v) (getSub q.subQueues (gp v) ++ [v])
  by_cases he : getSub q.subQueues (gp v) = [] <;> simp [he] at h ⊢ <;> omega

theorem ppqEnqueue_keys (gp : Nat → Int) (q : PriorityPartitionedQueue)
    (v : Nat) (hk : (q.subQueues.map Prod.fst).Nodup) :
    ((ppqEnqueue gp q v).subQueues.map Prod.fst).Nodup := by
  obtain ⟨hsub, _, _⟩ := ppqEnqueue_spec gp q v
  rw [hsub]
  exact keysNodup_aset _ _ hk

theorem ppqEnqueue_gen (gp : Nat → Int) (q : PriorityPartitionedQueue)
    (v : Nat) (hpg : PGInv q.priorityGen) :
    PGInv (ppqEnqueue gp q v).priorityGen ∧
      (ppqEnqueue gp q v).priorityGen.pmin ≤ q.priorityGen.pmin ∧
      q.priorityGen.pmax ≤ (ppqEnqueue gp q v).priorityGen.pmax := by
  obtain ⟨_, _, hgen⟩ := ppqEnqueue_spec gp q v
  rw [hgen]
  by_cases he : getSub q.subQueues (gp v) = []
  · rw [if_pos he]
    have hw := notify_window q.priorityGen (gp v)
    exact ⟨pgInv_notify _ hpg, hw.1, hw.2.1⟩
  · rw [if_neg he]
    exact ⟨hpg, le_refl _, le_refl _⟩

theorem ppqEnqueue_window (gp : Nat → Int) (q : PriorityPartitionedQueue)
    (v : Nat)
    (hw : ∀ e ∈ q.subQueues, e.2 ≠ [] →
      q.priorityGen.pmin ≤ e.1 ∧ e.1 ≤ q.priorityGen.pmax) :
    ∀ e ∈ (ppqEnqueue gp q v).subQueues, e.2 ≠ [] →
      (ppqEnqueue gp q v).priorityGen.pmin ≤ e.1 ∧
        e.1 ≤ (ppqEnqueue gp q v).priorityGen.pmax := by
  obtain ⟨hsub, _, hgen⟩ := ppqEnqueue_spec gp q v
  rw [hsub, hgen]
  intro e he hene
  rcases mem_aset he with he' | he'
  · subst he'
    by_cases hemp : getSub q.subQueues (gp v) = []
    · rw [if_pos hemp]
      have hnw := notify_window q.priorityGen (gp v)
      exact ⟨hnw.2.2.1, hnw.2.2.2⟩
    · rw [if_neg hemp]
      have hmem : (gp v, getSub q.subQueues (gp v)) ∈ q.subQueues := by
        unfold getSub at hemp ⊢
        cases hl : alookup (gp v) q.subQueues with
        | none => simp [hl] at hemp
        | some w => simpa [hl] using mem_of_alookup hl
      exact hw (gp v, getSub q.subQueues (gp v)) hmem hemp
  · by_cases hemp : getSub q.subQueues (gp v) = []
    · rw [if_pos hemp]
      have hnw := notify_window q.priorityGen (gp v)
      have := hw e he' hene
      constructor
      · exact le_trans hnw.1 this.1
      · exact le_trans this.2 hnw.2.1
    · rw [if_neg hemp]
      exact hw e he' hene

theorem ppqDequeue_none_state {q q' : PriorityPartitionedQueue}
    (h : ppqDequeue q = (none, q')) : q' = q := by
  unfold ppqDequeue at h
  split at h
  · injection h with h1 h2
    exact h2.symm
  · split at h
    · injection h with h1 h2
      exact h2.symm
    · split at h
      · injection h with h1 h2
        exact h2.symm
      · injection h with h1 h2
        cases h1

theorem ppqDequeue_some_spec {q : PriorityPartitionedQueue} {x : Nat}
    {q' : PriorityPartitionedQueue} (h : ppqDequeue q = (some x, q')) :
    ∃ p g' rest,
      selectLoop q.subQueues (ppqFuel q.priorityGen) q.priorityGen =
          some (p, g') ∧
        getSub q.subQueues p = x :: rest ∧
        q'.subQueues = aset q.subQueues p rest ∧
        q'.nonEmptySubQueueCount =
          (if rest = [] then q.nonEmptySubQueueCount - 1
           else q.nonEmptySubQueueCount) ∧
        q'.priorityGen = g' ∧
        q.nonEmptySubQueueCount ≠ 0 := by
  unfold ppqDequeue at h
  split at h
  · cases h
  · next hc =>
    split at h
    · cases h
    · next p g' hsel =>
      split at h
      · cases h
      · next x0 rest hget =>
        injection h with h1 h2
        have hx : x0 = x := Option.some.inj h1
        subst hx
        exact ⟨p, g', rest, hsel, hget, by rw [← h2], by rw [← h2],
          by rw [← h2], hc⟩

theorem ppqDequeue_isSome {q : PriorityPartitionedQueue}
    (hpg : PGInv q.priorityGen)
    (hk : (q.subQueues.map Prod.fst).Nodup)
    (hc : q.nonEmptySubQueueCount = neCount q.subQueues)
    (hw : ∀ e ∈ q.subQueues, e.2 ≠ [] →
      q.priorityGen.pmin ≤ e.1 ∧ e.1 ≤ q.priorityGen.pmax)
    (hne : q.nonEmptySubQueueCount ≠ 0) :
    (ppqDequeue q).1.isSome := by
  have hnc : neCount q.subQueues ≠ 0 := hc ▸ hne
  rcases neCount_pos hnc with ⟨e, hmem, hene⟩
  have hwin := hw e hmem hene
  have hget : getSub q.subQueues e.1 ≠ [] := by
    have : alookup e.1 q.subQueues = some e.2 := by
      obtain ⟨p, l⟩ := e
      exact alookup_of_mem_nodup hk hmem
    simp [getSub, this, hene]
  have hsome := selectLoop_isSome (ppqFuel q.priorityGen) q.priorityGen hpg
    hwin.1 hwin.2 hget (pgMeasure_lt_fuel hpg hwin.1 hwin.2)
  unfold ppqDequeue
  rw [if_neg hne]
  cases hsel : selectLoop q.subQueues (ppqFuel q.priorityGen) q.priorityGen with
  | none => rw [hsel] at hsome; simp at hsome
  | some pg =>
    obtain ⟨p, g'⟩ := pg
    obtain ⟨hgs, _, _, _⟩ := selectLoop_sound (ppqFuel q.priorityGen)
      q.priorityGen hpg hsel
    cases hget' : getSub q.subQueues p with
    | nil => exact absurd hget' hgs
    | cons x rest => simp [hget']

/-! ### Enqueue: characterization of the dependency-insertion folds -/

theorem enqueue_fold_spec (latest : List (ModelComponent × Nat)) (i : Nat) :
    ∀ (rs : List ModelComponent) (acc : List (Nat × Nat) × List (Nat × Nat)),
      (∀ a b, (a, b) ∈ (rs.foldl
          (fun acc c =>
            match alookup c latest with
            | some dep => (edgeAdd acc.1 (i, dep), edgeAdd acc.2 (dep, i))
            | none => acc) acc).1 ↔
        (a, b) ∈ acc.1 ∨ (a = i ∧ ∃ c ∈ rs, alookup c latest = some b)) ∧
      (∀ a b, (a, b) ∈ (rs.foldl
          (fun acc c =>
            match alookup c latest with
            | some dep => (edgeAdd acc.1 (i, dep), edgeAdd acc.2 (dep, i))
            | none => acc) acc).2 ↔
        (a, b) ∈ acc.2 ∨ (b = i ∧ ∃ c ∈ rs, alookup c latest = some a)) ∧
      (acc.1.Nodup → (rs.foldl
          (fun acc c =>
            match alookup c latest with
            | some dep => (edgeAdd acc.1 (i, dep), edgeAdd acc.2 (dep, i))
            | none => acc) acc).1.Nodup) ∧
      (acc.2.Nodup → (rs.foldl
          (fun acc c =>
            match alookup c latest with
            | some dep => (edgeAdd acc.1 (i, dep), edgeAdd acc.2 (dep, i))
            | none => acc) acc).2.Nodup) := by
  intro rs
  induction rs with
  | nil => intro acc; simp
  | cons c rs' ih =>
    intro acc
    simp only [List.foldl_cons]
    cases hl : alookup c latest with
    | none =>
      obtain ⟨ih1, ih2, ih3, ih4⟩ := ih acc
      refine ⟨?_, ?_, ih3, ih4⟩
      · intro a b
        rw [ih1]
        constructor
        · rintro (h | ⟨rfl, c', hc', hl'⟩)
          · exact Or.inl h
          · exact Or.inr ⟨rfl, c', List.mem_cons_of_mem _ hc', hl'⟩
        · rintro (h | ⟨rfl, c', hc', hl'⟩)
          · exact Or.inl h
          · rcases List.mem_cons.mp hc' with rfl | hc''
            · rw [hl] at hl'; cases hl'
            · exact Or.inr ⟨rfl, c', hc'', hl'⟩
      · intro a b
        rw [ih2]
        constructor
        · rintro (h | ⟨rfl, c', hc', hl'⟩)
          · exact Or.inl h
          · exact Or.inr ⟨rfl, c', List.mem_cons_of_mem _ hc', hl'⟩
        · rintro (h | ⟨rfl, c', hc', hl'⟩)
          · exact Or.inl h
          · rcases List.mem_cons.mp hc' with rfl | hc''
            · rw [hl] at hl'; cases hl'
            · exact Or.inr ⟨rfl, c', hc'', hl'⟩
    | some dep =>
      obtain ⟨ih1, ih2, ih3, ih4⟩ :=
        ih (edgeAdd acc.1 (i, dep), edgeAdd acc.2 (dep, i))
      refine ⟨?_, ?_, ?_, ?_⟩
      · intro a b
        rw [ih1]
        simp only [mem_edgeAdd, Prod.mk.injEq]
        constructor
        · rintro ((h | ⟨rfl, rfl⟩) | ⟨rfl, c', hc', hl'⟩)
          · exact Or.inl h
          · exact Or.inr ⟨rfl, c, List.mem_cons_self _ _, hl⟩
          · exact Or.inr ⟨rfl, c', List.mem_cons_of_mem _ hc', hl'⟩
        · rintro (h | ⟨rfl, c', hc', hl'⟩)
          · exact Or.inl (Or.inl h)
          · rcases List.mem_cons.mp hc' with rfl | hc''
            · rw [hl] at hl'
              cases hl'
              exact Or.inl (Or.inr ⟨rfl, rfl⟩)
            · exact Or.inr ⟨rfl, c', hc'', hl'⟩
      · intro a b
        rw [ih2]
        simp only [mem_edgeAdd, Prod.mk.injEq]
        constructor
        · rintro ((h | ⟨rfl, rfl⟩) | ⟨rfl, c', hc', hl'⟩)
          · exact Or.inl h
          · exact Or.inr ⟨rfl, c, List.mem_cons_self _ _, hl⟩
          · exact Or.inr ⟨rfl, c', List.mem_cons_of_mem _ hc', hl'⟩
        · rintro (h | ⟨rfl, c', hc', hl'⟩)
          · exact Or.inl (Or.inl h)
          · rcases List.mem_cons.mp hc' with rfl | hc''
            · rw [hl] at hl'
              cases hl'
              exact Or.inl (Or.inr ⟨rfl, rfl⟩)
            · exact Or.inr ⟨rfl, c', hc'', hl'⟩
      · intro hnd
        exact ih3 (nodup_edgeAdd _ hnd)
      · intro hnd
        exact ih4 (nodup_edgeAdd _ hnd)

theorem aset_fold_lookup (i : Nat) :
    ∀ (ws : List ModelComponent) (m : List (ModelComponent × Nat))
      (c' : ModelComponent),
      alookup c' (ws.foldl (fun m c => aset m c i) m) =
        if c' ∈ ws then some i else alookup c' m := by
  intro ws
  induction ws with
  | nil => intro m c'; simp
  | cons c ws' ih =>
    intro m c'
    simp only [List.foldl_cons]
    rw [ih]
    by_cases hc : c' ∈ ws'
    · simp [hc]
    · by_cases hcc : c' = c
      · subst hcc
        simp [hc, alookup_aset_self]
      · simp [hc, hcc, alookup_aset_ne _ _ hcc]

theorem aset_fold_keys (i : Nat) :
    ∀ (ws : List ModelComponent) (m : List (ModelComponent × Nat)),
      (m.map Prod.fst).Nodup →
      ((ws.foldl (fun m c => aset m c i) m).map Prod.fst).Nodup := by
  intro ws
  induction ws with
  | nil => intro m h; exact h
  | cons c ws' ih =>
    intro m h
    exact ih _ (keysNodup_aset _ _ h)

theorem enqueue_nextId (s : ModelTaskQueue) (t : ModelTask) :
    (enqueue s t).nextId = s.nextId + 1 := rfl

theorem enqueue_taskOf (s : ModelTaskQueue) (t : ModelTask) :
    (enqueue s t).taskOf = s.taskOf ++ [t] := rfl

theorem enqueue_dequeuedList (s : ModelTaskQueue) (t : ModelTask) :
    (enqueue s t).dequeuedList = s.dequeuedList := rfl

theorem enqueue_deps_mem (s : ModelTaskQueue) (t : ModelTask) (a b : Nat) :
    (a, b) ∈ (enqueue s t).deps ↔
      (a, b) ∈ s.deps ∨
        (a = s.nextId ∧
          ∃ c ∈ t.metadata.readSet, alookup c s.latest = some b) := by
  exact (enqueue_fold_spec s.latest s.nextId t.metadata.readSet
    (s.deps, s.invDeps)).1 a b

theorem enqueue_invDeps_mem (s : ModelTaskQueue) (t : ModelTask) (a b : Nat) :
    (a, b) ∈ (enqueue s t).invDeps ↔
      (a, b) ∈ s.invDeps ∨
        (b = s.nextId ∧
          ∃ c ∈ t.metadata.readSet, alookup c s.latest = some a) := by
  exact (enqueue_fold_spec s.latest s.nextId t.metadata.readSet
    (s.deps, s.invDeps)).2.1 a b

theorem enqueue_deps_nodup (s : ModelTaskQueue) (t : ModelTask)
    (h : s.deps.Nodup) : (enqueue s t).deps.Nodup :=
  (enqueue_fold_spec s.latest s.nextId t.metadata.readSet
    (s.deps, s.invDeps)).2.2.1 h

theorem enqueue_invDeps_nodup (s : ModelTaskQueue) (t : ModelTask)
    (h : s.invDeps.Nodup) : (enqueue s t).invDeps.Nodup :=
  (enqueue_fold_spec s.latest s.nextId t.metadata.readSet
    (s.deps, s.invDeps)).2.2.2 h

theorem enqueue_latest (s : ModelTaskQueue) (t : ModelTask)
    (c : ModelComponent) :
    alookup c (enqueue s t).latest =
      if c ∈ t.metadata.writeSet then some s.nextId
      else alookup c s.latest := by
  exact aset_fold_lookup s.nextId t.metadata.writeSet s.latest c

theorem enqueue_latest_keys (s : ModelTaskQueue) (t : ModelTask)
    (h : (s.latest.map Prod.fst).Nodup) :
    ((enqueue s t).latest.map Prod.fst).Nodup :=
  aset_fold_keys s.nextId t.metadata.writeSet s.latest h

theorem enqueue_elig (s : ModelTaskQueue) (t : ModelTask) :
    (enqueue s t).elig =
      if depsOf (enqueue s t).deps s.nextId = []
      then ppqEnqueue (priorityOf (s.taskOf ++ [t])) s.elig s.nextId
      else s.elig := rfl

/-! ### Complete: characterization of the severing folds -/

theorem cleanup_cons (i : Nat) (ws' : List ModelComponent)
    (m : List (ModelComponent × Nat)) (c : ModelComponent) :
    List.foldl
        (fun m c =>
          match alookup c m with
          | some v => if v = i then aremove m c else m
          | none => m) m (c :: ws') =
      List.foldl
        (fun m c =>
          match alookup c m with
          | some v => if v = i then aremove m c else m
          | none => m)
        (if alookup c m = some i then aremove m c else m) ws' := by
  simp only [List.foldl_cons]
  cases hx : alookup c m with
  | none => simp [hx]
  | some v =>
    by_cases hv : v = i
    · simp [hx, hv]
    · simp [hx, hv]

theorem cleanup_fold_keys (i : Nat) :
    ∀ (ws : List ModelComponent) (m : List (ModelComponent × Nat)),
      (m.map Prod.fst).Nodup →
      ((ws.foldl
          (fun m c =>
            match alookup c m with
            | some v => if v = i then aremove m c else m
            | none => m) m).map Prod.fst).Nodup := by
  intro ws
  induction ws with
  | nil => intro m h; exact h
  | cons c ws' ih =>
    intro m h
    rw [cleanup_cons]
    by_cases hx : alookup c m = some i
    · rw [if_pos hx]
      exact ih _ (keysNodup_aremove _ h)
    · rw [if_neg hx]
      exact ih m h

theorem cleanup_fold_lookup (i : Nat) :
    ∀ (ws : List ModelComponent) (m : List (ModelComponent × Nat)),
      (m.map Prod.fst).Nodup →
      ∀ c', alookup c' (ws.foldl
          (fun m c =>
            match alookup c m with
            | some v => if v = i then aremove m c else m
            | none => m) m) =
        if c' ∈ ws ∧ alookup c' m = some i then none else alookup c' m := by
  intro ws
  induction ws with
  | nil => intro m _ c'; simp
  | cons c ws' ih =>
    intro m hk c'
    rw [cleanup_cons]
    by_cases hx : alookup c m = some i
    · rw [if_pos hx]
      rw [ih _ (keysNodup_aremove _ hk) c']
      by_cases hcc : c' = c
      · subst hcc
        rw [alookup_aremove_self _ hk]
        simp [hx]
      · rw [alookup_aremove_ne _ hcc]
        simp [hcc]
    · rw [if_neg hx]
      rw [ih m hk c']
      by_cases hcc : c' = c
      · subst hcc
        simp [hx]
      · simp [hcc]

/-- Structural well-formedness of a priority-partitioned queue. -/
def PpqOk (q : PriorityPartitionedQueue) : Prop :=
  PGInv q.priorityGen ∧ (q.subQueues.map Prod.fst).Nodup ∧
    q.nonEmptySubQueueCount = neCount q.subQueues ∧
    (∀ e ∈ q.subQueues, e.2 ≠ [] →
      q.priorityGen.pmin ≤ e.1 ∧ e.1 ≤ q.priorityGen.pmax)

theorem ppqEnqueue_ok (gp : Nat → Int) (q : PriorityPartitionedQueue)
    (v : Nat) (h : PpqOk q) : PpqOk (ppqEnqueue gp q v) := by
  obtain ⟨h1, h2, h3, h4⟩ := h
  exact ⟨(ppqEnqueue_gen gp q v h1).1, ppqEnqueue_keys gp q v h2,
    ppqEnqueue_counter gp q v h3, ppqEnqueue_window gp q v h4⟩

theorem completeFold_step (taskOf : List ModelTask) (i j : Nat)
    (l' : List Nat) (d : List (Nat × Nat)) (q : PriorityPartitionedQueue) :
    completeFold taskOf i (j :: l') d q =
      completeFold taskOf i l' (d.erase (j, i))
        (if depsOf (d.erase (j, i)) j = []
         then ppqEnqueue (priorityOf taskOf) q j else q) := by
  by_cases he : depsOf (d.erase (j, i)) j = [] <;>
    simp [completeFold, List.foldl_cons, he]

theorem completeFold_spec (taskOf : List ModelTask) (i n : Nat)
    (dqe : List Nat) :
    ∀ (l : List Nat) (d : List (Nat × Nat)) (q : PriorityPartitionedQueue),
      l.Nodup → d.Nodup →
      (∀ j ∈ l, (j, i) ∈ d) →
      (∀ j ∈ l, j ≠ i ∧ j < n ∧ j ∉ dqe) →
      PpqOk q →
      (∀ y, ppqCount q y =
        if y < n ∧ depsOf d y = [] ∧ y ∉ dqe ∧ y ≠ i then 1 else 0) →
      (∀ a b, (a, b) ∈ (completeFold taskOf i l d q).1 ↔
          (a, b) ∈ d ∧ ¬(b = i ∧ a ∈ l)) ∧
        (completeFold taskOf i l d q).1.Nodup ∧
        PpqOk (completeFold taskOf i l d q).2 ∧
        (∀ y, ppqCount (completeFold taskOf i l d q).2 y =
          if y < n ∧ depsOf (completeFold taskOf i l d q).1 y = [] ∧
              y ∉ dqe ∧ y ≠ i then 1 else 0) := by
  intro l
  induction l with
  | nil =>
    intro d q _ hd _ _ hok hcount
    refine ⟨?_, hd, hok, ?_⟩
    · intro a b
      simp [completeFold]
    · intro y
      simpa [completeFold] using hcount y
  | cons j l' ih =>
    intro d q hln hd hjd hjprop hok hcount
    obtain ⟨hjl, hln'⟩ := List.nodup_cons.mp hln
    have hjdm : (j, i) ∈ d := hjd j (List.mem_cons_self _ _)
    obtain ⟨hji, hjn, hjdqe⟩ := hjprop j (List.mem_cons_self _ _)
    rw [completeFold_step]
    set d' := d.erase (j, i) with hde
    have hdn : d'.Nodup := hd.erase _
    have hmem_d' : ∀ a b, (a, b) ∈ d' ↔ (a, b) ∈ d ∧ (a, b) ≠ (j, i) := by
      intro a b
      rw [hde]
      constructor
      · intro h
        exact ⟨List.mem_of_mem_erase h, ((hd.mem_erase_iff).mp h).1⟩
      · intro ⟨h1, h2⟩
        exact (hd.mem_erase_iff).mpr ⟨h2, h1⟩
    have hdeps_ne : ∀ y, y ≠ j → depsOf d' y = depsOf d y := by
      intro y hy
      exact depsOf_erase_of_ne (by simpa using Ne.symm hy)
    have hdj : depsOf d j ≠ [] := by
      intro hc
      exact (depsOf_eq_nil.mp hc i) hjdm
    have hcj : ppqCount q j = 0 := by
      rw [hcount j]
      simp [hdj]
    have hjd' : ∀ j' ∈ l', (j', i) ∈ d' := by
      intro j' hj'
      refine (hmem_d' j' i).mpr ⟨hjd j' (List.mem_cons_of_mem _ hj'), ?_⟩
      intro hc
      have : j' = j := congrArg Prod.fst hc
      exact hjl (this ▸ hj')
    have hjprop' : ∀ j' ∈ l', j' ≠ i ∧ j' < n ∧ j' ∉ dqe := by
      intro j' hj'
      exact hjprop j' (List.mem_cons_of_mem _ hj')
    by_cases he : depsOf d' j = []
    · rw [if_pos he]
      have hok' : PpqOk (ppqEnqueue (priorityOf taskOf) q j) :=
        ppqEnqueue_ok _ _ _ hok
      have hcount' : ∀ y, ppqCount (ppqEnqueue (priorityOf taskOf) q j) y =
          if y < n ∧ depsOf d' y = [] ∧ y ∉ dqe ∧ y ≠ i then 1 else 0 := by
        intro y
        rw [ppqEnqueue_count]
        by_cases hyj : y = j
        · subst hyj
          simp [hcj, he, hjn, hjdqe, hji]
        · rw [hdeps_ne y hyj]
          have : ¬ (j = y) := fun hc => hyj hc.symm
          simp [this, hcount y]
      obtain ⟨ih1, ih2, ih3, ih4⟩ :=
        ih d' (ppqEnqueue (priorityOf taskOf) q j) hln' hdn hjd'
          hjprop' hok' hcount'
      refine ⟨?_, ih2, ih3, ih4⟩
      intro a b
      rw [ih1, hmem_d']
      constructor
      · rintro ⟨⟨h1, h2⟩, h3⟩
        refine ⟨h1, ?_⟩
        rintro ⟨rfl, hmem⟩
        rcases List.mem_cons.mp hmem with rfl | hmem'
        · exact h2 rfl
        · exact h3 ⟨rfl, hmem'⟩
      · rintro ⟨h1, h2⟩
        refine ⟨⟨h1, ?_⟩, ?_⟩
        · intro hc
          have ha : a = j := congrArg Prod.fst hc
          have hb : b = i := congrArg Prod.snd hc
          exact h2 ⟨hb, ha ▸ List.mem_cons_self _ _⟩
        · rintro ⟨rfl, hmem'⟩
          exact h2 ⟨rfl, List.mem_cons_of_mem _ hmem'⟩
    · rw [if_neg he]
      have hcount' : ∀ y, ppqCount q y =
          if y < n ∧ depsOf d' y = [] ∧ y ∉ dqe ∧ y ≠ i then 1 else 0 := by
        intro y
        by_cases hyj : y = j
        · subst hyj
          simp [hcj, he]
        · rw [hdeps_ne y hyj]
          exact hcount y
      obtain ⟨ih1, ih2, ih3, ih4⟩ :=
        ih d' q hln' hdn hjd' hjprop' hok hcount'
      refine ⟨?_, ih2, ih3, ih4⟩
      intro a b
      rw [ih1, hmem_d']
      constructor
      · rintro ⟨⟨h1, h2⟩, h3⟩
        refine ⟨h1, ?_⟩
        rintro ⟨rfl, hmem⟩
        rcases List.mem_cons.mp hmem with rfl | hmem'
        · exact h2 rfl
        · exact h3 ⟨rfl, hmem'⟩
      · rintro ⟨h1, h2⟩
        refine ⟨⟨h1, ?_⟩, ?_⟩
        · intro hc
          have ha : a = j := congrArg Prod.fst hc
          have hb : b = i := congrArg Prod.snd hc
          exact h2 ⟨hb, ha ▸ List.mem_cons_self _ _⟩
        · rintro ⟨rfl, hmem'⟩
          exact h2 ⟨rfl, List.mem_cons_of_mem _ hmem'⟩

/-! ### The scheduler invariant -/

theorem taskAt_append_lt (l : List ModelTask) (t : ModelTask) (i : Nat)
    (h : i < l.length) : taskAt (l ++ [t]) i = taskAt l i := by
  unfold taskAt
  rw [List.getD_append _ _ _ _ h]

theorem taskAt_append_self (l : List ModelTask) (t : ModelTask) :
    taskAt (l ++ [t]) l.length = t := by
  unfold taskAt
  rw [List.getD_append_right _ _ _ _ (le_refl _)]
  simp

theorem introduce_mem {t : ModelTask} {i : Nat} :
    ∀ (rs : List TaskRewriter) (sets : List (List Nat)) (l' : List Nat),
      l' ∈ introduceInstruction rs sets t i →
      ∃ l0 ∈ sets, l' = l0 ∨ l' = setAdd l0 i := by
  intro rs
  induction rs with
  | nil => intro sets l' h; simp [introduceInstruction] at h
  | cons r rs' ih =>
    intro sets l' h
    cases sets with
    | nil => simp [introduceInstruction] at h
    | cons s0 sets' =>
      simp only [introduceInstruction, List.zipWith_cons_cons] at h
      rcases List.mem_cons.mp h with h' | h'
      · refine ⟨s0, List.mem_cons_self _ _, ?_⟩
        by_cases hr : r.isOfInterest t
        · right; simpa [hr] using h'
        · left; simpa [hr] using h'
      · rcases ih sets' l' h' with ⟨l0, hl0, hor⟩
        exact ⟨l0, List.mem_cons_of_mem _ hl0, hor⟩

/-- Invariant of reachable `ModelTaskQueue` states. -/
structure Inv (s : ModelTaskQueue) : Prop where
  ppq : PpqOk s.elig
  count : ∀ y, ppqCount s.elig y =
    if y < s.nextId ∧ depsOf s.deps y = [] ∧ y ∉ s.dequeuedList then 1 else 0
  mirror : ∀ a b, (a, b) ∈ s.deps ↔ (b, a) ∈ s.invDeps
  edgeLt : ∀ a b, (a, b) ∈ s.deps → b < a ∧ a < s.nextId
  edgeLive : ∀ a b, (a, b) ∈ s.deps →
    a ∉ s.dequeuedList ∧ b ∉ s.dequeuedList
  depsNodup : s.deps.Nodup
  invNodup : s.invDeps.Nodup
  latestKeys : (s.latest.map Prod.fst).Nodup
  latestSpec : ∀ c v, alookup c s.latest = some v →
    v < s.nextId ∧ v ∉ s.dequeuedList ∧
      c ∈ (taskAt s.taskOf v).metadata.writeSet
  deqLt : ∀ x ∈ s.dequeuedList, x < s.nextId
  deqNodup : s.dequeuedList.Nodup
  taskLen : s.taskOf.length = s.nextId
  isetNodup : ∀ l ∈ s.interestSets, l.Nodup

theorem inv_start : Inv startQueue := by
  refine ⟨⟨pgInv_start, ?_, ?_, ?_⟩, ?_, ?_, ?_, ?_, ?_, ?_, ?_, ?_, ?_, ?_,
    ?_, ?_⟩ <;>
    simp [startQueue, ppqStart, ppqCount, neCount, alookup]

theorem inv_register (s : ModelTaskQueue) (r : TaskRewriter) (h : Inv s) :
    Inv (registerRewriter s r) := by
  obtain ⟨h1, h2, h3, h4, h5, h6, h7, h8, h9, h10, h11, h12, h13⟩ := h
  refine ⟨h1, h2, h3, h4, h5, h6, h7, h8, h9, h10, h11, h12, ?_⟩
  intro l hl
  simp only [registerRewriter] at hl
  rcases List.mem_append.mp hl with h' | h'
  · exact h13 l h'
  · simp only [List.mem_singleton] at h'
    subst h'
    exact List.nodup_nil

theorem inv_enqueue (s : ModelTaskQueue) (t : ModelTask) (h : Inv s) :
    Inv (enqueue s t) := by
  have hdeps := enqueue_deps_mem s t
  have hinv := enqueue_invDeps_mem s t
  have hnid := enqueue_nextId s t
  have htsk := enqueue_taskOf s t
  have hdq := enqueue_dequeuedList s t
  have hlat := enqueue_latest s t
  have hself : ∀ b, (s.nextId, b) ∉ s.deps := by
    intro b hc
    exact absurd (h.edgeLt _ _ hc).2 (lt_irrefl _)
  have hdeps_ne : ∀ y, y ≠ s.nextId →
      (depsOf (enqueue s t).deps y = [] ↔ depsOf s.deps y = []) := by
    intro y hy
    rw [depsOf_eq_nil, depsOf_eq_nil]
    constructor
    · intro hall j hj
      exact hall j ((hdeps y j).mpr (Or.inl hj))
    · intro hall j hj
      rcases (hdeps y j).mp hj with h' | ⟨hy', _⟩
      · exact hall j h'
      · exact hy hy'
  have hidq : s.nextId ∉ s.dequeuedList := by
    intro hc
    exact absurd (h.deqLt _ hc) (lt_irrefl _)
  refine ⟨?_, ?_, ?_, ?_, ?_, enqueue_deps_nodup s t h.depsNodup,
    enqueue_invDeps_nodup s t h.invNodup, enqueue_latest_keys s t h.latestKeys,
    ?_, ?_, ?_, ?_, ?_⟩
  · rw [enqueue_elig]
    by_cases he : depsOf (enqueue s t).deps s.nextId = []
    · rw [if_pos he]
      exact ppqEnqueue_ok _ _ _ h.ppq
    · rw [if_neg he]
      exact h.ppq
  · intro y
    rw [hnid, hdq, enqueue_elig]
    by_cases hy : y = s.nextId
    · subst hy
      have h0 : ppqCount s.elig s.nextId = 0 := by
        rw [h.count s.nextId]
        simp
      by_cases he : depsOf (enqueue s t).deps s.nextId = []
      · rw [if_pos he, ppqEnqueue_count, h0]
        simp [he, hidq]
      · rw [if_neg he, h0]
        simp [he]
    · have hiff : (y < s.nextId + 1 ∧ depsOf (enqueue s t).deps y = [] ∧
          y ∉ s.dequeuedList) ↔
          (y < s.nextId ∧ depsOf s.deps y = [] ∧ y ∉ s.dequeuedList) := by
        constructor
        · rintro ⟨h1, h2, h3⟩
          exact ⟨by omega, (hdeps_ne y hy).mp h2, h3⟩
        · rintro ⟨h1, h2, h3⟩
          exact ⟨by omega, (hdeps_ne y hy).mpr h2, h3⟩
      by_cases he : depsOf (enqueue s t).deps s.nextId = []
      · rw [if_pos he, ppqEnqueue_count]
        have hne : ¬ (s.nextId = y) := fun hc => hy hc.symm
        rw [h.count y, if_congr hiff rfl rfl]
        simp [hne]
      · rw [if_neg he, h.count y, if_congr hiff rfl rfl]
  · intro a b
    rw [hdeps a b, hinv b a, h.mirror a b]
  · intro a b hab
    rw [hnid]
    rcases (hdeps a b).mp hab with h' | ⟨rfl, c, _, hl'⟩
    · have := h.edgeLt a b h'
      omega
    · have := (h.latestSpec c b hl').1
      omega
  · intro a b hab
    rw [hdq]
    rcases (hdeps a b).mp hab with h' | ⟨rfl, c, _, hl'⟩
    · exact h.edgeLive a b h'
    · exact ⟨hidq, (h.latestSpec c b hl').2.1⟩
  · intro c v hcv
    rw [hlat c] at hcv
    rw [hnid, hdq, htsk]
    by_cases hc : c ∈ t.metadata.writeSet
    · rw [if_pos hc] at hcv
      cases hcv
      have hta : taskAt (s.taskOf ++ [t]) s.nextId = t := by
        rw [← h.taskLen]
        exact taskAt_append_self _ _
      rw [hta]
      exact ⟨by omega, hidq, hc⟩
    · rw [if_neg hc] at hcv
      obtain ⟨hv1, hv2, hv3⟩ := h.latestSpec c v hcv
      rw [taskAt_append_lt _ _ _ (h.taskLen ▸ hv1)]
      exact ⟨by omega, hv2, hv3⟩
  · intro x hx
    rw [hnid]
    rw [hdq] at hx
    have := h.deqLt x hx
    omega
  · rw [hdq]
    exact h.deqNodup
  · rw [hnid, htsk]
    simp [h.taskLen]
  · intro l hl
    have hsets : (enqueue s t).interestSets =
        introduceInstruction s.rewriters s.interestSets t s.nextId := rfl
    rw [hsets] at hl
    rcases introduce_mem _ _ _ hl with ⟨l0, hl0, h' | h'⟩
    · rw [h']
      exact h.isetNodup l0 hl0
    · rw [h']
      exact nodup_setAdd _ (h.isetNodup l0 hl0)

theorem invDepsOf_eq (d : List (Nat × Nat)) (i : Nat) :
    invDepsOf d i = depsOf d i := rfl

theorem dequeue_empty_state {s : ModelTaskQueue} {q : PriorityPartitionedQueue}
    (hd : ppqDequeue s.elig = (none, q)) : dequeue s = (none, s) := by
  have hq : q = s.elig := ppqDequeue_none_state hd
  subst hq
  unfold dequeue
  rw [hd]

theorem dequeue_some_state {s : ModelTaskQueue} {i : Nat}
    {q : PriorityPartitionedQueue} (hd : ppqDequeue s.elig = (some i, q)) :
    dequeue s = (some (taskAt s.taskOf i),
      { complete { s with elig := q } i with
        dequeuedList := (complete { s with elig := q } i).dequeuedList ++ [i] }) := by
  unfold dequeue
  rw [hd]

/-- Everything established by a successful dequeue: the invariant is preserved
and the popped instruction is completely severed from the graph. -/
theorem dequeue_core (s : ModelTaskQueue) (h : Inv s) {i : Nat}
    {q : PriorityPartitionedQueue} (hd : ppqDequeue s.elig = (some i, q)) :
    Inv (dequeue s).2 ∧
      (dequeue s).1 = some (taskAt s.taskOf i) ∧
      (dequeue s).2.dequeuedList = s.dequeuedList ++ [i] ∧
      ppqCount s.elig i = 1 ∧
      (∀ j, (j, i) ∉ (dequeue s).2.deps) ∧
      (∀ j, (i, j) ∉ (dequeue s).2.invDeps) ∧
      (∀ c, alookup c (dequeue s).2.latest ≠ some i) ∧
      (∀ a b, (a, b) ∈ (dequeue s).2.deps → (a, b) ∈ s.deps) ∧
      (∀ a b, (a, b) ∈ s.deps → (a, b) ∈ (dequeue s).2.deps ∨ b = i) := by
  obtain ⟨p, g', rest, hsel, hget, hsubq, hcntq, hgenq, hcne⟩ :=
    ppqDequeue_some_spec hd
  obtain ⟨hpg, hkeys, hcounter, hwindow⟩ := h.ppq
  obtain ⟨hgs_ne, hpg', hgmin, hgmax⟩ :=
    selectLoop_sound (ppqFuel s.elig.priorityGen) s.elig.priorityGen hpg hsel
  have halp : alookup p s.elig.subQueues = some (i :: rest) := by
    unfold getSub at hget
    cases hl : alookup p s.elig.subQueues with
    | none => rw [hl] at hget; simp at hget
    | some w =>
      rw [hl] at hget
      simp only [Option.getD_some] at hget
      rw [hget]
  have hpop : ∀ y, ppqCount q y + (if i = y then 1 else 0) =
      ppqCount s.elig y := by
    intro y
    have hs := sumcnt_aset s.elig.subQueues p rest y
    rw [hget] at hs
    simp only [cnt] at hs
    unfold ppqCount
    rw [hsubq]
    omega
  have hcsi : ppqCount s.elig i = 1 := by
    have hp : ppqCount q i + 1 = ppqCount s.elig i := by simpa using hpop i
    have h1 : 1 ≤ ppqCount s.elig i := by omega
    have hc := h.count i
    by_cases hcond : i < s.nextId ∧ depsOf s.deps i = [] ∧
        i ∉ s.dequeuedList
    · rw [hc, if_pos hcond]
    · rw [hc, if_neg hcond] at h1
      omega
  have hcond_i : i < s.nextId ∧ depsOf s.deps i = [] ∧
      i ∉ s.dequeuedList := by
    have hc := h.count i
    rw [hcsi] at hc
    by_cases hcond : i < s.nextId ∧ depsOf s.deps i = [] ∧
        i ∉ s.dequeuedList
    · exact hcond
    · rw [if_neg hcond] at hc
      cases hc
  obtain ⟨hiLt, hidep, hidqe⟩ := hcond_i
  have hokq : PpqOk q := by
    refine ⟨?_, ?_, ?_, ?_⟩
    · rw [hgenq]; exact hpg'
    · rw [hsubq]; exact keysNodup_aset _ _ hkeys
    · rw [hcntq, hsubq]
      have hnc1 : neCount (aset s.elig.subQueues p rest) + 1 =
          neCount s.elig.subQueues + (if rest = [] then 0 else 1) := by
        have hx := neCount_aset s.elig.subQueues p rest
        rw [hget] at hx
        simpa using hx
      by_cases hrest : rest = []
      · rw [if_pos hrest] at hnc1 ⊢
        omega
      · rw [if_neg hrest] at hnc1 ⊢
        omega
    · rw [hsubq, hgenq]
      intro e he hene
      rcases mem_aset he with he' | he'
      · subst he'
        have := hwindow (p, i :: rest) (mem_of_alookup halp)
          (List.cons_ne_nil _ _)
        rw [hgmin, hgmax]
        exact this
      · rw [hgmin, hgmax]
        exact hwindow e he' hene
  have hlnd : (invDepsOf s.invDeps i).Nodup := by
    rw [invDepsOf_eq]
    exact nodup_depsOf i h.invNodup
  have hljd : ∀ j ∈ invDepsOf s.invDeps i, (j, i) ∈ s.deps := by
    intro j hj
    exact (h.mirror j i).mpr (mem_invDepsOf.mp hj)
  have hlprop : ∀ j ∈ invDepsOf s.invDeps i,
      j ≠ i ∧ j < s.nextId ∧ j ∉ s.dequeuedList := by
    intro j hj
    have hji := hljd j hj
    have h1 := h.edgeLt j i hji
    have h2 := h.edgeLive j i hji
    exact ⟨by omega, h1.2, h2.1⟩
  have hcountq : ∀ y, ppqCount q y =
      if y < s.nextId ∧ depsOf s.deps y = [] ∧ y ∉ s.dequeuedList ∧ y ≠ i
      then 1 else 0 := by
    intro y
    have hp := hpop y
    by_cases hyi : y = i
    · subst hyi
      have hp1 : ppqCount q y + 1 = ppqCount s.elig y := by simpa using hp
      rw [hcsi] at hp1
      have h0 : ppqCount q y = 0 := by omega
      simp [h0]
    · have hne : ¬ (i = y) := fun hc => hyi hc.symm
      rw [if_neg hne] at hp
      simp only [Nat.add_zero] at hp
      rw [hp, h.count y]
      refine if_congr ?_ rfl rfl
      constructor
      · rintro ⟨a, b, c⟩
        exact ⟨a, b, c, hyi⟩
      · rintro ⟨a, b, c, _⟩
        exact ⟨a, b, c⟩
  obtain ⟨hcf_mem, hcf_nodup, hcf_ok, hcf_count⟩ :=
    completeFold_spec s.taskOf i s.nextId s.dequeuedList
      (invDepsOf s.invDeps i) s.deps q hlnd h.depsNodup hljd hlprop hokq
      hcountq
  have hbl : ∀ a, (a, i) ∈ s.deps → a ∈ invDepsOf s.invDeps i := by
    intro a ha
    exact mem_invDepsOf.mpr ((h.mirror a i).mp ha)
  have hstate := dequeue_some_state hd
  have hsc_deps : (dequeue s).2.deps =
      (completeFold s.taskOf i (invDepsOf s.invDeps i) s.deps q).1 := by
    rw [hstate]
    rfl
  have hsc_elig : (dequeue s).2.elig =
      (completeFold s.taskOf i (invDepsOf s.invDeps i) s.deps q).2 := by
    rw [hstate]
    rfl
  have hsc_inv : (dequeue s).2.invDeps =
      s.invDeps.filter (fun e => decide (e.1 ≠ i)) := by
    rw [hstate]
    rfl
  have hsc_latest : (dequeue s).2.latest =
      (taskAt s.taskOf i).metadata.writeSet.foldl
        (fun m c =>
          match alookup c m with
          | some v => if v = i then aremove m c else m
          | none => m) s.latest := by
    rw [hstate]
    rfl
  have hsc_dqe : (dequeue s).2.dequeuedList = s.dequeuedList ++ [i] := by
    rw [hstate]
    rfl
  have hsc_nid : (dequeue s).2.nextId = s.nextId := by
    rw [hstate]
    rfl
  have hsc_task : (dequeue s).2.taskOf = s.taskOf := by
    rw [hstate]
    rfl
  have hsc_isets : (dequeue s).2.interestSets =
      s.interestSets.map (fun iset => iset.erase i) := by
    rw [hstate]
    rfl
  have hmem' : ∀ a b, (a, b) ∈ (dequeue s).2.deps ↔
      (a, b) ∈ s.deps ∧ ¬(b = i ∧ a ∈ invDepsOf s.invDeps i) := by
    intro a b
    rw [hsc_deps]
    exact hcf_mem a b
  have hbi : ∀ a b, (a, b) ∈ (dequeue s).2.deps → b ≠ i := by
    intro a b hab hc
    subst hc
    obtain ⟨h1, h2⟩ := (hmem' a b).mp hab
    exact h2 ⟨rfl, hbl a h1⟩
  have hai : ∀ a b, (a, b) ∈ (dequeue s).2.deps → a ≠ i := by
    intro a b hab hc
    subst hc
    obtain ⟨h1, _⟩ := (hmem' a b).mp hab
    exact (depsOf_eq_nil.mp hidep b) h1
  have hlat' : ∀ c, alookup c (dequeue s).2.latest =
      if c ∈ (taskAt s.taskOf i).metadata.writeSet ∧
          alookup c s.latest = some i
      then none else alookup c s.latest := by
    intro c
    rw [hsc_latest]
    exact cleanup_fold_lookup i _ s.latest h.latestKeys c
  have hlat_ne : ∀ c, alookup c (dequeue s).2.latest ≠ some i := by
    intro c hc
    rw [hlat' c] at hc
    by_cases hcw : c ∈ (taskAt s.taskOf i).metadata.writeSet ∧
        alookup c s.latest = some i
    · rw [if_pos hcw] at hc
      cases hc
    · rw [if_neg hcw] at hc
      have := (h.latestSpec c i hc).2.2
      exact hcw ⟨this, hc⟩
  refine ⟨?_, ?_, hsc_dqe, hcsi, ?_, ?_, hlat_ne, ?_, ?_⟩
  · -- the invariant for the post-dequeue state
    refine ⟨?_, ?_, ?_, ?_, ?_, ?_, ?_, ?_, ?_, ?_, ?_, ?_, ?_⟩
    · rw [hsc_elig]; exact hcf_ok
    · intro y
      rw [hsc_elig, hsc_nid, hsc_dqe, hcf_count y, ← hsc_deps]
      refine if_congr ?_ rfl rfl
      constructor
      · rintro ⟨a, b, c, d⟩
        refine ⟨a, b, ?_⟩
        intro hmem
        rcases List.mem_append.mp hmem with hm | hm
        · exact c hm
        · rw [List.mem_singleton] at hm
          exact d hm
      · rintro ⟨a, b, c⟩
        refine ⟨a, b, fun hm => c (List.mem_append.mpr (Or.inl hm)),
          fun hm => c (List.mem_append.mpr (Or.inr (by simp [hm])))⟩
    · intro a b
      rw [hmem' a b, hsc_inv]
      rw [List.mem_filter]
      simp only [decide_eq_true_eq]
      constructor
      · rintro ⟨h1, h2⟩
        refine ⟨(h.mirror a b).mp h1, ?_⟩
        intro hc
        exact h2 ⟨hc, hbl a (hc ▸ h1)⟩
      · rintro ⟨h1, h2⟩
        refine ⟨(h.mirror a b).mpr h1, ?_⟩
        rintro ⟨hc, _⟩
        exact h2 hc
    · intro a b hab
      rw [hsc_nid]
      exact h.edgeLt a b ((hmem' a b).mp hab).1
    · intro a b hab
      rw [hsc_dqe]
      have h1 := h.edgeLive a b ((hmem' a b).mp hab).1
      have h2 := hai a b hab
      have h3 := hbi a b hab
      constructor
      · intro hm
        rcases List.mem_append.mp hm with hm' | hm'
        · exact h1.1 hm'
        · rw [List.mem_singleton] at hm'
          exact h2 hm'
      · intro hm
        rcases List.mem_append.mp hm with hm' | hm'
        · exact h1.2 hm'
        · rw [List.mem_singleton] at hm'
          exact h3 hm'
    · rw [hsc_deps]; exact hcf_nodup
    · rw [hsc_inv]
      exact h.invNodup.filter _
    · rw [hsc_latest]
      exact cleanup_fold_keys i _ s.latest h.latestKeys
    · intro c v hcv
      rw [hsc_nid, hsc_dqe, hsc_task]
      have hvne : v ≠ i := by
        intro hc
        exact hlat_ne c (hc ▸ hcv)
      rw [hlat' c] at hcv
      by_cases hcw : c ∈ (taskAt s.taskOf i).metadata.writeSet ∧
          alookup c s.latest = some i
      · rw [if_pos hcw] at hcv
        cases hcv
      · rw [if_neg hcw] at hcv
        obtain ⟨h1, h2, h3⟩ := h.latestSpec c v hcv
        refine ⟨h1, ?_, h3⟩
        intro hm
        rcases List.mem_append.mp hm with hm' | hm'
        · exact h2 hm'
        · rw [List.mem_singleton] at hm'
          exact hvne hm'
    · intro x hx
      rw [hsc_nid]
      rw [hsc_dqe] at hx
      rcases List.mem_append.mp hx with hm | hm
      · exact h.deqLt x hm
      · rw [List.mem_singleton] at hm
        omega
    · rw [hsc_dqe]
      refine List.Nodup.append h.deqNodup (List.nodup_singleton i) ?_
      intro x hx hxi
      rw [List.mem_singleton] at hxi
      subst hxi
      exact hidqe hx
    · rw [hsc_nid, hsc_task]
      exact h.taskLen
    · intro l hl
      rw [hsc_isets] at hl
      rcases List.mem_map.mp hl with ⟨l0, hl0, rfl⟩
      exact (h.isetNodup l0 hl0).erase _
  · rw [hstate]
  · intro j hj
    exact hbi j i hj rfl
  · intro j hj
    rw [hsc_inv, List.mem_filter] at hj
    simp only [decide_eq_true_eq] at hj
    exact hj.2 rfl
  · intro a b hab
    exact ((hmem' a b).mp hab).1
  · intro a b hab
    by_cases hbi' : b = i
    · exact Or.inr hbi'
    · refine Or.inl ((hmem' a b).mpr ⟨hab, ?_⟩)
      rintro ⟨hc, _⟩
      exact hbi' hc

theorem inv_dequeue (s : ModelTaskQueue) (h : Inv s) :
    Inv (dequeue s).2 := by
  rcases hd : ppqDequeue s.elig with ⟨o, q⟩
  cases o with
  | none =>
    rw [dequeue_empty_state hd]
    exact h
  | some i =>
    exact (dequeue_core s h hd).1

theorem inv_step (s : ModelTaskQueue) (op : SchedOp) (h : Inv s) :
    Inv (step s op).1 := by
  cases op with
  | enqueueOp t => exact inv_enqueue s t h
  | dequeueOp => exact inv_dequeue s h
  | registerOp r => exact inv_register s r h

theorem inv_runFrom (s : ModelTaskQueue) (ops : List SchedOp) (h : Inv s) :
    Inv (runFrom s ops) := by
  induction ops generalizing s with
  | nil => exact h
  | cons op ops' ih => exact ih _ (inv_step s op h)

theorem reachable_inv {s : ModelTaskQueue} (h : Reachable s) : Inv s := by
  rcases h with ⟨ops, rfl⟩
  exact inv_runFrom startQueue ops inv_start

/-! ### Dependency edges force dequeue order -/

theorem register_deps (s : ModelTaskQueue) (r : TaskRewriter) :
    (registerRewriter s r).deps = s.deps := rfl

theorem register_dequeuedList (s : ModelTaskQueue) (r : TaskRewriter) :
    (registerRewriter s r).dequeuedList = s.dequeuedList := rfl

theorem dequeue_some_dqe {s : ModelTaskQueue} {i : Nat}
    {q : PriorityPartitionedQueue} (hd : ppqDequeue s.elig = (some i, q)) :
    (dequeue s).2.dequeuedList = s.dequeuedList ++ [i] := by
  rw [dequeue_some_state hd]
  rfl

theorem step_dqe_mono (s : ModelTaskQueue) (op : SchedOp) :
    ∃ suf, (step s op).1.dequeuedList = s.dequeuedList ++ suf := by
  cases op with
  | enqueueOp t =>
    exact ⟨[], by rw [show (step s (SchedOp.enqueueOp t)).1 = enqueue s t
      from rfl, enqueue_dequeuedList]; simp⟩
  | registerOp r =>
    exact ⟨[], by rw [show (step s (SchedOp.registerOp r)).1 =
      registerRewriter s r from rfl, register_dequeuedList]; simp⟩
  | dequeueOp =>
    rcases hd : ppqDequeue s.elig with ⟨o, q⟩
    cases o with
    | none =>
      refine ⟨[], ?_⟩
      have : (step s SchedOp.dequeueOp).1 = (dequeue s).2 := rfl
      rw [this, dequeue_empty_state hd]
      simp
    | some i =>
      refine ⟨[i], ?_⟩
      have : (step s SchedOp.dequeueOp).1 = (dequeue s).2 := rfl
      rw [this, dequeue_some_dqe hd]

theorem runFrom_dqe_mono (ops : List SchedOp) :
    ∀ s : ModelTaskQueue,
      ∃ suf, (runFrom s ops).dequeuedList = s.dequeuedList ++ suf := by
  induction ops with
  | nil => intro s; exact ⟨[], by simp [runFrom]⟩
  | cons op ops' ih =>
    intro s
    obtain ⟨suf0, h0⟩ := step_dqe_mono s op
    obtain ⟨suf, hsuf⟩ := ih (step s op).1
    refine ⟨suf0 ++ suf, ?_⟩
    have hrun : runFrom s (op :: ops') = runFrom (step s op).1 ops' := by
      simp [runFrom]
    rw [hrun, hsuf, h0, List.append_assoc]

theorem step_deps_persist (s : ModelTaskQueue) (op : SchedOp) (h : Inv s)
    {b a : Nat} (hab : (b, a) ∈ s.deps) :
    (b, a) ∈ (step s op).1.deps ∨
      (step s op).1.dequeuedList = s.dequeuedList ++ [a] := by
  cases op with
  | enqueueOp t =>
    exact Or.inl ((enqueue_deps_mem s t b a).mpr (Or.inl hab))
  | registerOp r =>
    exact Or.inl (register_deps s r ▸ hab)
  | dequeueOp =>
    rcases hd : ppqDequeue s.elig with ⟨o, q⟩
    cases o with
    | none =>
      left
      have hstep : (step s SchedOp.dequeueOp).1 = (dequeue s).2 := rfl
      rw [hstep, dequeue_empty_state hd]
      exact hab
    | some i =>
      obtain ⟨_, _, hdqe, _, _, _, _, _, hpersist⟩ := dequeue_core s h hd
      have hstep : (step s SchedOp.dequeueOp).1 = (dequeue s).2 := rfl
      rcases hpersist b a hab with hp | hp
      · exact Or.inl (hstep ▸ hp)
      · right
        rw [hstep, hdqe, hp]

theorem dep_order (ops : List SchedOp) :
    ∀ (s : ModelTaskQueue) {b a : Nat}, Inv s → (b, a) ∈ s.deps →
      b ∈ (runFrom s ops).dequeuedList →
      a ∈ (runFrom s ops).dequeuedList ∧
        posOf a (runFrom s ops).dequeuedList <
          posOf b (runFrom s ops).dequeuedList := by
  induction ops with
  | nil =>
    intro s b a hInv hab hb
    exact absurd hb (hInv.edgeLive b a hab).1
  | cons op ops' ih =>
    intro s b a hInv hab hb
    have hrun : runFrom s (op :: ops') = runFrom (step s op).1 ops' := by
      simp [runFrom]
    rw [hrun] at hb ⊢
    have hInv' := inv_step s op hInv
    rcases step_deps_persist s op hInv hab with hp | hp
    · exact ih _ hInv' hp hb
    · have hba : a < b := (hInv.edgeLt b a hab).1
      have hbni : b ∉ (step s op).1.dequeuedList := by
        rw [hp]
        intro hc
        rcases List.mem_append.mp hc with hm | hm
        · exact (hInv.edgeLive b a hab).1 hm
        · rw [List.mem_singleton] at hm
          omega
      have hain : a ∈ (step s op).1.dequeuedList := by
        rw [hp]
        simp
      obtain ⟨suf, hsuf⟩ := runFrom_dqe_mono ops' (step s op).1
      rw [hsuf] at hb ⊢
      have hbsuf : b ∈ suf := by
        rcases List.mem_append.mp hb with hm | hm
        · exact absurd hm hbni
        · exact hm
      refine ⟨List.mem_append.mpr (Or.inl hain), ?_⟩
      rw [posOf_append_of_mem hain suf, posOf_append_of_not_mem hbni suf]
      have := posOf_lt_length hain
      omega

theorem enqueue_creates_edge (s : ModelTaskQueue) (t : ModelTask)
    {c : ModelComponent} {a : Nat} (hc : c ∈ t.metadata.readSet)
    (hl : alookup c s.latest = some a) :
    (s.nextId, a) ∈ (enqueue s t).deps :=
  (enqueue_deps_mem s t _ _).mpr (Or.inr ⟨rfl, c, hc, hl⟩)

theorem run_append (ops1 ops2 : List SchedOp) :
    run (ops1 ++ ops2) = runFrom (run ops1) ops2 := by
  simp [run, runFrom, List.foldl_append]

/-! ### Priority generator: the emitted cycle -/

/-- First `n` priorities emitted by repeatedly calling `next`. -/
def emitSeq (g : PriorityGenerator) : Nat → List Int
  | 0 => []
  | n + 1 => (g.next).1 :: emitSeq (g.next).2 n

/-- Generator state after `n` calls of `next`. -/
def emitState (g : PriorityGenerator) : Nat → PriorityGenerator
  | 0 => g
  | n + 1 => emitState (g.next).2 n

theorem emitSeq_add (m n : Nat) :
    ∀ g : PriorityGenerator,
      emitSeq g (m + n) = emitSeq g m ++ emitSeq (emitState g m) n := by
  induction m with
  | zero => intro g; simp [emitSeq, emitState]
  | succ m ih =>
    intro g
    rw [Nat.succ_add]
    simp only [emitSeq, emitState]
    rw [ih (g.next).2]
    simp

theorem emitState_add (m n : Nat) :
    ∀ g : PriorityGenerator,
      emitState g (m + n) = emitState (emitState g m) n := by
  induction m with
  | zero => intro g; simp [emitState]
  | succ m ih =>
    intro g
    rw [Nat.succ_add]
    simp only [emitState]
    exact ih (g.next).2

/-- Descending run `[c, c-1, ..., c-n+1]`. -/
def descFrom (c : Int) : Nat → List Int
  | 0 => []
  | n + 1 => c :: descFrom (c - 1) n

theorem pass_emit :
    ∀ (n : Nat) (mn mx c f : Int), mn ≤ f → f ≤ c → c ≤ mx →
      (c - f).toNat = n →
      emitSeq ⟨mn, mx, c, f⟩ (n + 1) = descFrom c (n + 1) ∧
        emitState ⟨mn, mx, c, f⟩ (n + 1) =
          ⟨mn, mx, mx, if mn < f then f - 1 else mx⟩ := by
  intro n
  induction n with
  | zero =>
    intro mn mx c f h1 h2 h3 h4
    have hcf : c = f := by omega
    subst hcf
    have hle : (⟨mn, mx, c, c⟩ : PriorityGenerator).current ≤
        (⟨mn, mx, c, c⟩ : PriorityGenerator).frontier := le_refl _
    constructor
    · simp [emitSeq, PriorityGenerator.next, nextFrontier, descFrom]
    · simp only [emitState, PriorityGenerator.next, nextFrontier]
      rw [if_pos hle]
      simp only [emitState]
      split_ifs with h
      · rfl
      · rfl
  | succ n ih =>
    intro mn mx c f h1 h2 h3 h4
    have hgt : ¬ ((⟨mn, mx, c, f⟩ : PriorityGenerator).current ≤
        (⟨mn, mx, c, f⟩ : PriorityGenerator).frontier) := by
      simp only []
      omega
    have hnext : (⟨mn, mx, c, f⟩ : PriorityGenerator).next =
        (c, ⟨mn, mx, c - 1, f⟩) := by
      unfold PriorityGenerator.next
      rw [if_neg hgt]
    obtain ⟨ih1, ih2⟩ := ih mn mx (c - 1) f (by omega) (by omega) (by omega)
      (by omega)
    have hn1 : (⟨mn, mx, c, f⟩ : PriorityGenerator).next.1 = c := by
      rw [hnext]
    have hn2 : (⟨mn, mx, c, f⟩ : PriorityGenerator).next.2 =
        ⟨mn, mx, c - 1, f⟩ := by
      rw [hnext]
    have hseq : emitSeq ⟨mn, mx, c, f⟩ (n + 1 + 1) =
        (⟨mn, mx, c, f⟩ : PriorityGenerator).next.1 ::
          emitSeq (⟨mn, mx, c, f⟩ : PriorityGenerator).next.2 (n + 1) := rfl
    have hst : emitState ⟨mn, mx, c, f⟩ (n + 1 + 1) =
        emitState (⟨mn, mx, c, f⟩ : PriorityGenerator).next.2 (n + 1) := rfl
    constructor
    · rw [hseq, hn1, hn2, ih1]
      rfl
    · rw [hst, hn2]
      exact ih2

/-- Length of the sweep that starts at `mx` and ends at frontier `f`. -/
def passLen (mx f : Int) : Nat := (mx - f).toNat + 1

/-- Concatenation of the sweeps with frontiers `mn + k, mn + k - 1, ..., mn`. -/
def cycleSeq (mn mx : Int) : Nat → List Int
  | 0 => descFrom mx (passLen mx mn)
  | k + 1 => descFrom mx (passLen mx (mn + (k + 1 : Nat))) ++ cycleSeq mn mx k

/-- Number of `next` calls in those sweeps. -/
def cycleLen (mn mx : Int) : Nat → Nat
  | 0 => passLen mx mn
  | k + 1 => passLen mx (mn + (k + 1 : Nat)) + cycleLen mn mx k

theorem cycle_chain :
    ∀ (k : Nat) (mn mx : Int), mn + k ≤ mx →
      emitSeq ⟨mn, mx, mx, mn + k⟩ (cycleLen mn mx k) = cycleSeq mn mx k ∧
        emitState ⟨mn, mx, mx, mn + k⟩ (cycleLen mn mx k) =
          ⟨mn, mx, mx, mx⟩ := by
  intro k
  induction k with
  | zero =>
    intro mn mx hk
    have hk' : mn ≤ mx := by simpa using hk
    have hp := pass_emit ((mx - mn).toNat) mn mx mx mn (le_refl mn) hk'
      (le_refl mx) rfl
    have hlen : cycleLen mn mx 0 = (mx - mn).toNat + 1 := rfl
    have hfr : (mn + ((0 : Nat) : Int)) = mn := by simp
    rw [hlen, hfr]
    constructor
    · rw [hp.1]
      rfl
    · rw [hp.2]
      simp
  | succ k ih =>
    intro mn mx hk
    have hk1 : mn + (k : Int) ≤ mx := by push_cast at hk ⊢; omega
    have hfgt : mn < mn + ((k : Nat) + 1 : Int) := by omega
    have hple : mn + ((k : Nat) + 1 : Int) ≤ mx := by push_cast at hk ⊢; omega
    have hp := pass_emit ((mx - (mn + ((k : Nat) + 1 : Int))).toNat) mn mx mx
      (mn + ((k : Nat) + 1 : Int)) (by omega) (by omega) (le_refl _) rfl
    have hlen : cycleLen mn mx (k + 1) =
        passLen mx (mn + ((k + 1 : Nat) : Int)) + cycleLen mn mx k := rfl
    have hpl : passLen mx (mn + ((k + 1 : Nat) : Int)) =
        (mx - (mn + ((k : Nat) + 1 : Int))).toNat + 1 := by
      unfold passLen
      push_cast
      rfl
    have hcast : (mn + ((k + 1 : Nat) : Int)) = mn + ((k : Nat) + 1 : Int) := by
      push_cast
      ring
    have hfr1 : (if mn < mn + ((k : Nat) + 1 : Int)
        then mn + ((k : Nat) + 1 : Int) - 1 else mx) = mn + (k : Int) := by
      rw [if_pos hfgt]
      ring
    obtain ⟨ihs, ihst⟩ := ih mn mx hk1
    rw [hlen, hpl, hcast]
    constructor
    · rw [emitSeq_add, hp.1, hp.2, hfr1, ihs]
      simp only [cycleSeq]
      rw [hpl]
    · rw [emitState_add, hp.2, hfr1]
      exact ihst

theorem count_descFrom (i : Int) :
    ∀ (n : Nat) (c : Int),
      List.count i (descFrom c n) = if c - n < i ∧ i ≤ c then 1 else 0 := by
  intro n
  induction n with
  | zero =>
    intro c
    simp only [descFrom, List.count_nil]
    split_ifs with h
    · omega
    · rfl
  | succ n ih =>
    intro c
    simp only [descFrom, List.count_cons, ih (c - 1), beq_iff_eq]
    split_ifs <;> omega

theorem count_cycleSeq :
    ∀ (k : Nat) (mn mx i : Int), mn ≤ i → i ≤ mx → mn + k ≤ mx →
      List.count i (cycleSeq mn mx k) = (min (i - mn) k).toNat + 1 := by
  intro k
  induction k with
  | zero =>
    intro mn mx i h1 h2 h3
    simp only [cycleSeq]
    rw [count_descFrom]
    unfold passLen
    split_ifs with h
    · omega
    · exfalso
      apply h
      constructor <;> push_cast <;> omega
  | succ k ih =>
    intro mn mx i h1 h2 h3
    have h3' : mn + (k : Int) ≤ mx := by push_cast at h3 ⊢; omega
    simp only [cycleSeq]
    rw [List.count_append, count_descFrom, ih mn mx i h1 h2 h3']
    unfold passLen
    have hcast : ((mn + ((k + 1 : Nat) : Int))) = mn + (k : Int) + 1 := by
      push_cast
      ring
    rw [hcast]
    have htn : ((mx - (mn + (k : Int) + 1)).toNat : Int) =
        mx - mn - k - 1 := by
      push_cast at h3
      omega
    split_ifs with h <;> push_cast at h ⊢ <;> omega

theorem cycleLen_closed :
    ∀ (k : Nat) (mn mx : Int), mn + k ≤ mx →
      2 * (cycleLen mn mx k : Int) = (k + 1) * (2 * (mx - mn) + 2 - k) := by
  intro k
  induction k with
  | zero =>
    intro mn mx h
    simp only [cycleLen, passLen]
    push_cast at h ⊢
    omega
  | succ k ih =>
    intro mn mx h
    have h' : mn + (k : Int) ≤ mx := by push_cast at h ⊢; omega
    have hih := ih mn mx h'
    have hcl : (cycleLen mn mx (k + 1) : Int) =
        (passLen mx (mn + ((k + 1 : Nat) : Int)) : Int) +
          (cycleLen mn mx k : Int) := by
      simp [cycleLen]
    have hpl : (passLen mx (mn + ((k + 1 : Nat) : Int)) : Int) =
        mx - mn - k := by
      unfold passLen
      push_cast at h ⊢
      omega
    rw [hcl, hpl]
    push_cast
    linear_combination hih

/-! ### The merger safety predicate -/

theorem foldl_flag {α : Type} (f : Bool → α → Bool) (q : α → Bool)
    (hf : ∀ acc x, f acc x = if q x = true then false else acc) :
    ∀ (l : List α) (b : Bool),
      (l.foldl f b = true ↔ b = true ∧ ∀ x ∈ l, q x = false) := by
  intro l
  induction l with
  | nil => intro b; simp
  | cons x l ih =>
    intro b
    rw [List.foldl_cons, ih (f b x), hf b x]
    cases hq : q x with
    | true => simp [hq]
    | false => simp [hq]

theorem hasEmptyIntersection_iff (r w : List ModelComponent) :
    hasEmptyIntersection r w = true ↔ ∀ c ∈ r, c ∉ w := by
  unfold hasEmptyIntersection
  rw [foldl_flag _ (fun c => decide (c ∈ w))
    (by intro acc x; by_cases h : x ∈ w <;> simp [h])]
  simp

theorem canMergeReadAfterWrite_iff (s : ModelTaskQueue)
    (first second : Nat) :
    canMergeReadAfterWrite s first second = true ↔
      ∀ K ∈ invDepsOf s.invDeps first, K ≠ second →
        (∀ c ∈ (taskAt s.taskOf K).metadata.readSet,
            c ∉ (taskAt s.taskOf second).metadata.writeSet) ∧
          (second, K) ∉ s.deps := by
  unfold canMergeReadAfterWrite
  rw [foldl_flag _
    (fun d => decide (d ≠ second ∧
      (¬ hasEmptyIntersection (taskAt s.taskOf d).metadata.readSet
          (taskAt s.taskOf second).metadata.writeSet ∨
        (second, d) ∈ s.deps)))
    (by
      intro acc d
      by_cases h1 : d = second
      · simp [h1]
      · by_cases h2 : (¬ hasEmptyIntersection
            (taskAt s.taskOf d).metadata.readSet
            (taskAt s.taskOf second).metadata.writeSet ∨
          (second, d) ∈ s.deps)
        · simp [h1, h2]
        · simp [h1, h2])]
  simp only [true_and, decide_eq_false_iff_not]
  constructor
  · intro hall K hK hKs
    have h := hall K hK
    rw [not_and_or] at h
    rcases h with h | h
    · exact absurd hKs (by simpa using h)
    · rw [not_or] at h
      obtain ⟨h1, h2⟩ := h
      have h1' : hasEmptyIntersection (taskAt s.taskOf K).metadata.readSet
          (taskAt s.taskOf second).metadata.writeSet = true := by
        by_cases hb : hasEmptyIntersection (taskAt s.taskOf K).metadata.readSet
            (taskAt s.taskOf second).metadata.writeSet = true
        · exact hb
        · exact absurd (by simpa using hb) h1
      exact ⟨(hasEmptyIntersection_iff _ _).mp h1', h2⟩
  · intro hall K hK
    by_cases hKs : K = second
    · rw [not_and_or]
      exact Or.inl (by simpa using hKs)
    · obtain ⟨h1, h2⟩ := hall K hK hKs
      rw [not_and_or]
      right
      rw [not_or]
      refine ⟨?_, h2⟩
      simp only [not_not]
      exact (hasEmptyIntersection_iff _ _).mpr h1

/-! ### The claims -/

/-- C3: in every reachable state, the multiset of instructions stored in the
priority-partitioned queue equals the multiset of live instructions whose
dependency set is empty and that have not yet been dequeued (stated as an
equality of multiplicities: each such instruction appears exactly once in the
PPQ and every other id appears zero times). -/
theorem c3_ready_set_eq_eligibility (s : ModelTaskQueue) (h : Reachable s) :
    ∀ i, ppqCount s.elig i =
      if i < s.nextId ∧ depsOf s.deps i = [] ∧ i ∉ s.dequeuedList
      then 1 else 0 :=
  (reachable_inv h).count

theorem c3_witness :
    ppqCount (run [SchedOp.enqueueOp ⟨1, ⟨[], [], 0⟩⟩]).elig 0 =
      if 0 < (run [SchedOp.enqueueOp ⟨1, ⟨[], [], 0⟩⟩]).nextId ∧
          depsOf (run [SchedOp.enqueueOp ⟨1, ⟨[], [], 0⟩⟩]).deps 0 = [] ∧
          0 ∉ (run [SchedOp.enqueueOp ⟨1, ⟨[], [], 0⟩⟩]).dequeuedList
      then 1 else 0 :=
  c3_ready_set_eq_eligibility _ ⟨[SchedOp.enqueueOp ⟨1, ⟨[], [], 0⟩⟩], rfl⟩ 0

/-- C4: in every reachable state the dependency and inverted-dependency edge
sets are mutual inverses: `j ∈ dependencies(i)` iff
`i ∈ invertedDependencies(j)`; since this holds in every reachable state,
every scheduler operation preserves it. -/
theorem c4_dependency_mirror (s : ModelTaskQueue) (h : Reachable s) :
    ∀ i j, (i, j) ∈ s.deps ↔ (j, i) ∈ s.invDeps :=
  (reachable_inv h).mirror

theorem c4_witness :
    (1, 0) ∈ (run [SchedOp.enqueueOp ⟨1, ⟨[], [5], 0⟩⟩,
        SchedOp.enqueueOp ⟨2, ⟨[5], [], 0⟩⟩]).deps ↔
      (0, 1) ∈ (run [SchedOp.enqueueOp ⟨1, ⟨[], [5], 0⟩⟩,
        SchedOp.enqueueOp ⟨2, ⟨[5], [], 0⟩⟩]).invDeps :=
  c4_dependency_mirror _ ⟨[SchedOp.enqueueOp ⟨1, ⟨[], [5], 0⟩⟩,
    SchedOp.enqueueOp ⟨2, ⟨[5], [], 0⟩⟩], rfl⟩ 1 0

/-- C5: for a `PriorityGenerator` with observed window `[mn, mx]` at the start
of a cycle and not notified of any new priority, one full cycle of `next()` is
the explicit deterministic sequence `cycleSeq`, returns the generator to the
cycle-start state, emits each priority `i` in `mn..mx` exactly `i - mn + 1`
times, and has length `(mx - mn + 1) * (mx - mn + 2) / 2`. -/
theorem c5_generator_cycle (mn mx : Int) (h : mn ≤ mx) :
    emitSeq ⟨mn, mx, mx, mx⟩ (cycleLen mn mx (mx - mn).toNat) =
        cycleSeq mn mx (mx - mn).toNat ∧
      emitState ⟨mn, mx, mx, mx⟩ (cycleLen mn mx (mx - mn).toNat) =
        ⟨mn, mx, mx, mx⟩ ∧
      (∀ i : Int, mn ≤ i → i ≤ mx →
        List.count i (emitSeq ⟨mn, mx, mx, mx⟩
          (cycleLen mn mx (mx - mn).toNat)) = (i - mn + 1).toNat) ∧
      (cycleLen mn mx (mx - mn).toNat : Int) =
        (mx - mn + 1) * (mx - mn + 2) / 2 := by
  have hmx : mn + (((mx - mn).toNat : Nat) : Int) = mx := by omega
  have hc := cycle_chain (mx - mn).toNat mn mx (by omega)
  rw [hmx] at hc
  refine ⟨hc.1, hc.2, ?_, ?_⟩
  · intro i h1 h2
    rw [hc.1, count_cycleSeq _ mn mx i h1 h2 (by omega)]
    omega
  · have h2 := cycleLen_closed (mx - mn).toNat mn mx (by omega)
    have hW : (((mx - mn).toNat : Nat) : Int) = mx - mn := by omega
    rw [hW] at h2
    have h3 : 2 * (cycleLen mn mx (mx - mn).toNat : Int) =
        (mx - mn + 1) * (mx - mn + 2) := by linear_combination h2
    generalize hP : (mx - mn + 1) * (mx - mn + 2) = P at h3 ⊢
    omega

theorem c5_witness :
    (-2 : Int) ≤ 3 ∧
      (emitSeq ⟨-2, 3, 3, 3⟩ (cycleLen (-2) 3 ((3 : Int) - (-2)).toNat) =
          cycleSeq (-2) 3 ((3 : Int) - (-2)).toNat ∧
        emitState ⟨-2, 3, 3, 3⟩ (cycleLen (-2) 3 ((3 : Int) - (-2)).toNat) =
          ⟨-2, 3, 3, 3⟩ ∧
        (∀ i : Int, -2 ≤ i → i ≤ 3 →
          List.count i (emitSeq ⟨-2, 3, 3, 3⟩
            (cycleLen (-2) 3 ((3 : Int) - (-2)).toNat)) =
            (i - (-2) + 1).toNat) ∧
        (cycleLen (-2) 3 ((3 : Int) - (-2)).toNat : Int) =
          ((3 : Int) - (-2) + 1) * ((3 : Int) - (-2) + 2) / 2) :=
  ⟨by decide, c5_generator_cycle (-2) 3 (by decide)⟩

/-- C7: `canMergeReadAfterWrite(first, second)` returns true iff every
instruction `K` in the inverted dependency set of `first` other than `second`
has a read set disjoint from `second`'s write set and is not in `second`'s
dependency set.  The hypothesis states the read-after-write edge between the
pair. -/
theorem c7_canMergeRAW (s : ModelTaskQueue) (first second : Nat)
    (hraw : second ∈ invDepsOf s.invDeps first) :
    canMergeReadAfterWrite s first second = true ↔
      ∀ K ∈ invDepsOf s.invDeps first, K ≠ second →
        (∀ c ∈ (taskAt s.taskOf K).metadata.readSet,
            c ∉ (taskAt s.taskOf second).metadata.writeSet) ∧
          (second, K) ∉ s.deps :=
  canMergeReadAfterWrite_iff s first second

theorem c7_witness :
    (1 ∈ invDepsOf (run [SchedOp.enqueueOp ⟨1, ⟨[], [7], 0⟩⟩,
        SchedOp.enqueueOp ⟨2, ⟨[7], [], 0⟩⟩]).invDeps 0) ∧
      (canMergeReadAfterWrite (run [SchedOp.enqueueOp ⟨1, ⟨[], [7], 0⟩⟩,
          SchedOp.enqueueOp ⟨2, ⟨[7], [], 0⟩⟩]) 0 1 = true ↔
        ∀ K ∈ invDepsOf (run [SchedOp.enqueueOp ⟨1, ⟨[], [7], 0⟩⟩,
            SchedOp.enqueueOp ⟨2, ⟨[7], [], 0⟩⟩]).invDeps 0, K ≠ 1 →
          (∀ c ∈ (taskAt (run [SchedOp.enqueueOp ⟨1, ⟨[], [7], 0⟩⟩,
              SchedOp.enqueueOp ⟨2, ⟨[7], [], 0⟩⟩]).taskOf K).metadata.readSet,
              c ∉ (taskAt (run [SchedOp.enqueueOp ⟨1, ⟨[], [7], 0⟩⟩,
                SchedOp.enqueueOp ⟨2,
                  ⟨[7], [], 0⟩⟩]).taskOf 1).metadata.writeSet) ∧
            (1, K) ∉ (run [SchedOp.enqueueOp ⟨1, ⟨[], [7], 0⟩⟩,
              SchedOp.enqueueOp ⟨2, ⟨[7], [], 0⟩⟩]).deps) :=
  ⟨by decide, c7_canMergeRAW _ 0 1 (by decide)⟩

/-- C8: on every reachable state whose priority-partitioned queue is
non-empty, `PriorityPartitionedQueue.dequeue` returns an element: the
generator-advancing loop terminates within the modelled fuel. -/
theorem c8_ppq_dequeue_total (s : ModelTaskQueue) (h : Reachable s)
    (hne : s.elig.nonEmptySubQueueCount ≠ 0) :
    (ppqDequeue s.elig).1.isSome := by
  obtain ⟨hpg, hkeys, hcounter, hwindow⟩ := (reachable_inv h).ppq
  exact ppqDequeue_isSome hpg hkeys hcounter hwindow hne

theorem c8_witness :
    (run [SchedOp.enqueueOp ⟨1, ⟨[], [], 0⟩⟩]).elig.nonEmptySubQueueCount ≠
        0 ∧
      (ppqDequeue (run [SchedOp.enqueueOp
        ⟨1, ⟨[], [], 0⟩⟩]).elig).1.isSome :=
  ⟨by decide, c8_ppq_dequeue_total _
    ⟨[SchedOp.enqueueOp ⟨1, ⟨[], [], 0⟩⟩], rfl⟩ (by decide)⟩

/-- C9: in every reachable state, the sequence of instructions returned by
dequeue is duplicate-free: each enqueued task is returned at most once. -/
theorem c9_dequeues_nodup (s : ModelTaskQueue) (h : Reachable s) :
    s.dequeuedList.Nodup :=
  (reachable_inv h).deqNodup

theorem c9_witness :
    (run [SchedOp.enqueueOp ⟨1, ⟨[], [], 0⟩⟩, SchedOp.dequeueOp,
      SchedOp.dequeueOp]).dequeuedList.Nodup :=
  c9_dequeues_nodup _ ⟨[SchedOp.enqueueOp ⟨1, ⟨[], [], 0⟩⟩,
    SchedOp.dequeueOp, SchedOp.dequeueOp], rfl⟩

/-- C10: calling dequeue on an empty queue returns `none` and leaves the
entire scheduler state (sub-queues, generator, graph, latest-writer map,
interest sets) unchanged. -/
theorem c10_empty_dequeue_frame (s : ModelTaskQueue)
    (h : s.elig.nonEmptySubQueueCount = 0) : dequeue s = (none, s) := by
  have hd : ppqDequeue s.elig = (none, s.elig) := by
    unfold ppqDequeue
    rw [if_pos h]
  exact dequeue_empty_state hd

theorem c10_witness :
    startQueue.elig.nonEmptySubQueueCount = 0 ∧
      dequeue startQueue = (none, startQueue) :=
  ⟨rfl, c10_empty_dequeue_frame startQueue rfl⟩

/-- C1 counterexample: tasks `t0` (W={5}, p=0), `t1` (W={5}, p=1) and `t2`
(R={5}, p=1).  `t0` is enqueued before `t1` and `W(t0) ∩ W(t1) ≠ ∅`, and
before `t2` with `W(t0) ∩ R(t2) ≠ ∅`, yet the dequeue order is `[1, 2, 0]`:
both `t1` and `t2` are returned before `t0`, refuting the claim for the
write-write case and for the read case with an intervening writer. -/
theorem c1_counterexample :
    (5 ∈ (⟨1, ⟨[], [5], 0⟩⟩ : ModelTask).metadata.writeSet ∧
        5 ∈ (⟨2, ⟨[], [5], 1⟩⟩ : ModelTask).metadata.writeSet) ∧
      (5 ∈ (⟨1, ⟨[], [5], 0⟩⟩ : ModelTask).metadata.writeSet ∧
        5 ∈ (⟨3, ⟨[5], [], 1⟩⟩ : ModelTask).metadata.readSet) ∧
      (run [SchedOp.enqueueOp ⟨1, ⟨[], [5], 0⟩⟩,
        SchedOp.enqueueOp ⟨2, ⟨[], [5], 1⟩⟩,
        SchedOp.enqueueOp ⟨3, ⟨[5], [], 1⟩⟩,
        SchedOp.dequeueOp, SchedOp.dequeueOp,
        SchedOp.dequeueOp]).dequeuedList = [1, 2, 0] ∧
      posOf 1 [1, 2, 0] < posOf 0 [1, 2, 0] ∧
      posOf 2 [1, 2, 0] < posOf 0 [1, 2, 0] := by
  decide

/-- C1 amended: write-after-write pairs are not ordered, and a reader is
ordered only after the *latest* writer of a component it reads.  Precisely:
if at the moment task `t` is enqueued some component `c` of its read set has
latest writer `a`, then in every continuation of the trace in which `t`'s
instruction is dequeued, `a` is dequeued strictly earlier. -/
theorem c1_amended (ops1 : List SchedOp) (t : ModelTask) (ops2 : List SchedOp)
    (a : Nat) (c : ModelComponent) (hc : c ∈ t.metadata.readSet)
    (hl : alookup c (run ops1).latest = some a)
    (hb : (run ops1).nextId ∈
      (run (ops1 ++ SchedOp.enqueueOp t :: ops2)).dequeuedList) :
    a ∈ (run (ops1 ++ SchedOp.enqueueOp t :: ops2)).dequeuedList ∧
      posOf a (run (ops1 ++ SchedOp.enqueueOp t :: ops2)).dequeuedList <
        posOf (run ops1).nextId
          (run (ops1 ++ SchedOp.enqueueOp t :: ops2)).dequeuedList := by
  have hInv1 : Inv (run ops1) := reachable_inv ⟨ops1, rfl⟩
  have hInv2 : Inv (enqueue (run ops1) t) := inv_enqueue _ t hInv1
  have hedge := enqueue_creates_edge (run ops1) t hc hl
  have hrun : run (ops1 ++ SchedOp.enqueueOp t :: ops2) =
      runFrom (enqueue (run ops1) t) ops2 := by
    rw [run_append]
    simp [runFrom, step]
  rw [hrun] at hb ⊢
  exact dep_order ops2 (enqueue (run ops1) t) hInv2 hedge hb

theorem c1_witness :
    (5 ∈ (⟨2, ⟨[5], [], 0⟩⟩ : ModelTask).metadata.readSet) ∧
      (alookup 5 (run [SchedOp.enqueueOp
          ⟨1, ⟨[], [5], 0⟩⟩]).latest = some 0) ∧
      ((run [SchedOp.enqueueOp ⟨1, ⟨[], [5], 0⟩⟩]).nextId ∈
        (run ([SchedOp.enqueueOp ⟨1, ⟨[], [5], 0⟩⟩] ++
          SchedOp.enqueueOp ⟨2, ⟨[5], [], 0⟩⟩ ::
            [SchedOp.dequeueOp, SchedOp.dequeueOp])).dequeuedList) ∧
      (0 ∈ (run ([SchedOp.enqueueOp ⟨1, ⟨[], [5], 0⟩⟩] ++
          SchedOp.enqueueOp ⟨2, ⟨[5], [], 0⟩⟩ ::
            [SchedOp.dequeueOp, SchedOp.dequeueOp])).dequeuedList ∧
        posOf 0 (run ([SchedOp.enqueueOp ⟨1, ⟨[], [5], 0⟩⟩] ++
          SchedOp.enqueueOp ⟨2, ⟨[5], [], 0⟩⟩ ::
            [SchedOp.dequeueOp, SchedOp.dequeueOp])).dequeuedList <
          posOf (run [SchedOp.enqueueOp ⟨1, ⟨[], [5], 0⟩⟩]).nextId
            (run ([SchedOp.enqueueOp ⟨1, ⟨[], [5], 0⟩⟩] ++
              SchedOp.enqueueOp ⟨2, ⟨[5], [], 0⟩⟩ ::
                [SchedOp.dequeueOp, SchedOp.dequeueOp])).dequeuedList) :=
  ⟨by decide, by decide, by decide,
    c1_amended [SchedOp.enqueueOp ⟨1, ⟨[], [5], 0⟩⟩] ⟨2, ⟨[5], [], 0⟩⟩
      [SchedOp.dequeueOp, SchedOp.dequeueOp] 0 5 (by decide) (by decide)
      (by decide)⟩

/-- C2 counterexample: a rewriter that matches both `t1` and `t2` and fuses
them to `t12` is registered, `t1` (W={7}) and `t2` (R={7}) are enqueued, yet
the first dequeue returns `t1`, not the fused task `t12`, and the second
dequeue returns `t2`, not none: `ModelTaskQueue` never invokes the merger's
`merge`. -/
theorem c2_counterexample :
    ((⟨fun t => decide (t.index = 1 ∨ t.index = 2),
        fun a b => if a.index = 1 ∧ b.index = 2
          then some ⟨12, ⟨[], [], 0⟩⟩ else none⟩ :
        TaskRewriter).isOfInterest ⟨1, ⟨[], [7], 0⟩⟩ = true) ∧
      ((⟨fun t => decide (t.index = 1 ∨ t.index = 2),
          fun a b => if a.index = 1 ∧ b.index = 2
            then some ⟨12, ⟨[], [], 0⟩⟩ else none⟩ :
          TaskRewriter).isOfInterest ⟨2, ⟨[7], [], 0⟩⟩ = true) ∧
      ((⟨fun t => decide (t.index = 1 ∨ t.index = 2),
          fun a b => if a.index = 1 ∧ b.index = 2
            then some ⟨12, ⟨[], [], 0⟩⟩ else none⟩ :
          TaskRewriter).maybeRewrite ⟨1, ⟨[], [7], 0⟩⟩ ⟨2, ⟨[7], [], 0⟩⟩ =
        some ⟨12, ⟨[], [], 0⟩⟩) ∧
      (runOutputs [SchedOp.registerOp
          ⟨fun t => decide (t.index = 1 ∨ t.index = 2),
            fun a b => if a.index = 1 ∧ b.index = 2
              then some ⟨12, ⟨[], [], 0⟩⟩ else none⟩,
        SchedOp.enqueueOp ⟨1, ⟨[], [7], 0⟩⟩,
        SchedOp.enqueueOp ⟨2, ⟨[7], [], 0⟩⟩,
        SchedOp.dequeueOp, SchedOp.dequeueOp]).getD 3 none =
        some ⟨1, ⟨[], [7], 0⟩⟩ ∧
      (⟨1, ⟨[], [7], 0⟩⟩ : ModelTask) ≠ ⟨12, ⟨[], [], 0⟩⟩ := by
  decide

/-- C2 amended: in the scenario of S6 the first dequeue returns `t1` and the
second returns `t2`; registering the rewriter has no effect on the dequeue
results because the queue never calls the merger's `merge`. -/
theorem c2_amended :
    runOutputs [SchedOp.registerOp
        ⟨fun t => decide (t.index = 1 ∨ t.index = 2),
          fun a b => if a.index = 1 ∧ b.index = 2
            then some ⟨12, ⟨[], [], 0⟩⟩ else none⟩,
      SchedOp.enqueueOp ⟨1, ⟨[], [7], 0⟩⟩,
      SchedOp.enqueueOp ⟨2, ⟨[7], [], 0⟩⟩,
      SchedOp.dequeueOp, SchedOp.dequeueOp] =
      [none, none, none, some ⟨1, ⟨[], [7], 0⟩⟩,
        some ⟨2, ⟨[7], [], 0⟩⟩] := by
  decide

/-- C6 counterexample: a reachable state in which the priority-partitioned
queue holds instruction 3 with priority 1, yet dequeue returns the task of
instruction 1 with priority 0: dequeue does not select the highest-priority
eligible instruction, it follows the priority generator's weighted order. -/
theorem c6_counterexample :
    ppqCount (run [SchedOp.enqueueOp ⟨1, ⟨[], [], 1⟩⟩, SchedOp.dequeueOp,
        SchedOp.enqueueOp ⟨2, ⟨[], [], 0⟩⟩,
        SchedOp.enqueueOp ⟨3, ⟨[], [], 1⟩⟩, SchedOp.dequeueOp,
        SchedOp.enqueueOp ⟨4, ⟨[], [], 1⟩⟩]).elig 3 = 1 ∧
      priorityOf (run [SchedOp.enqueueOp ⟨1, ⟨[], [], 1⟩⟩, SchedOp.dequeueOp,
        SchedOp.enqueueOp ⟨2, ⟨[], [], 0⟩⟩,
        SchedOp.enqueueOp ⟨3, ⟨[], [], 1⟩⟩, SchedOp.dequeueOp,
        SchedOp.enqueueOp ⟨4, ⟨[], [], 1⟩⟩]).taskOf 3 = 1 ∧
      (dequeue (run [SchedOp.enqueueOp ⟨1, ⟨[], [], 1⟩⟩, SchedOp.dequeueOp,
        SchedOp.enqueueOp ⟨2, ⟨[], [], 0⟩⟩,
        SchedOp.enqueueOp ⟨3, ⟨[], [], 1⟩⟩, SchedOp.dequeueOp,
        SchedOp.enqueueOp ⟨4, ⟨[], [], 1⟩⟩])).1 =
        some ⟨2, ⟨[], [], 0⟩⟩ ∧
      (⟨2, ⟨[], [], 0⟩⟩ : ModelTask).metadata.priority = 0 ∧
      (0 : Int) < 1 := by
  decide

/-- C6 amended: on every reachable state, dequeue returns none exactly when
the priority-partitioned queue is empty; otherwise it removes the front
instruction of the sub-queue picked by the priority generator — an
instruction present in the PPQ, though not necessarily of highest priority —
pre-emptively completes it (no dependency edge into it or inverted edge out
of it survives, its latest-writer entries are cleared, the merger drops it
from every interest set) and returns its task. -/
theorem c6_amended (s : ModelTaskQueue) (h : Reachable s) :
    ((dequeue s).1 = none ↔ s.elig.nonEmptySubQueueCount = 0) ∧
      (∀ t, (dequeue s).1 = some t →
        ∃ i, ppqCount s.elig i = 1 ∧ t = taskAt s.taskOf i ∧
          (dequeue s).2.dequeuedList = s.dequeuedList ++ [i] ∧
          (∀ j, (j, i) ∉ (dequeue s).2.deps) ∧
          (∀ j, (i, j) ∉ (dequeue s).2.invDeps) ∧
          (∀ c, alookup c (dequeue s).2.latest ≠ some i) ∧
          (∀ iset ∈ (dequeue s).2.interestSets, i ∉ iset)) := by
  have hInv := reachable_inv h
  rcases hd : ppqDequeue s.elig with ⟨o, q⟩
  cases o with
  | none =>
    have hcc : s.elig.nonEmptySubQueueCount = 0 := by
      by_contra hne
      obtain ⟨hpg, hkeys, hcounter, hwindow⟩ := hInv.ppq
      have hsome := ppqDequeue_isSome hpg hkeys hcounter hwindow hne
      rw [hd] at hsome
      simp at hsome
    constructor
    · exact ⟨fun _ => hcc, fun _ => by rw [dequeue_empty_state hd]⟩
    · intro t ht
      rw [dequeue_empty_state hd] at ht
      cases ht
  | some i =>
    obtain ⟨hInv', hout, hdqe, hcount, hdeps, hinv, hlat, _, _⟩ :=
      dequeue_core s hInv hd
    obtain ⟨_, _, _, _, _, _, _, _, hcne⟩ := ppqDequeue_some_spec hd
    constructor
    · constructor
      · intro hc
        rw [hout] at hc
        cases hc
      · intro hc
        exact absurd hc hcne
    · intro t ht
      rw [hout] at ht
      have ht' : t = taskAt s.taskOf i := (Option.some.inj ht).symm
      refine ⟨i, hcount, ht', hdqe, hdeps, hinv, hlat, ?_⟩
      intro iset hiset
      have hisets : (dequeue s).2.interestSets =
          s.interestSets.map (fun l => l.erase i) := by
        rw [dequeue_some_state hd]
        rfl
      rw [hisets] at hiset
      rcases List.mem_map.mp hiset with ⟨l0, hl0, rfl⟩
      intro hc
      have := (hInv.isetNodup l0 hl0).mem_erase_iff.mp hc
      exact this.1 rfl

theorem c6_witness :
    ((dequeue (run [SchedOp.enqueueOp ⟨1, ⟨[], [], 0⟩⟩])).1 = none ↔
        (run [SchedOp.enqueueOp
          ⟨1, ⟨[], [], 0⟩⟩]).elig.nonEmptySubQueueCount = 0) ∧
      (∀ t, (dequeue (run [SchedOp.enqueueOp ⟨1, ⟨[], [], 0⟩⟩])).1 =
          some t →
        ∃ i, ppqCount (run [SchedOp.enqueueOp
              ⟨1, ⟨[], [], 0⟩⟩]).elig i = 1 ∧
          t = taskAt (run [SchedOp.enqueueOp ⟨1, ⟨[], [], 0⟩⟩]).taskOf i ∧
          (dequeue (run [SchedOp.enqueueOp
            ⟨1, ⟨[], [], 0⟩⟩])).2.dequeuedList =
            (run [SchedOp.enqueueOp ⟨1, ⟨[], [], 0⟩⟩]).dequeuedList ++ [i] ∧
          (∀ j, (j, i) ∉
            (dequeue (run [SchedOp.enqueueOp ⟨1, ⟨[], [], 0⟩⟩])).2.deps) ∧
          (∀ j, (i, j) ∉
            (dequeue (run [SchedOp.enqueueOp
              ⟨1, ⟨[], [], 0⟩⟩])).2.invDeps) ∧
          (∀ c, alookup c (dequeue (run [SchedOp.enqueueOp
            ⟨1, ⟨[], [], 0⟩⟩])).2.latest ≠ some i) ∧
          (∀ iset ∈ (dequeue (run [SchedOp.enqueueOp
              ⟨1, ⟨[], [], 0⟩⟩])).2.interestSets, i ∉ iset)) :=
  c6_amended _ ⟨[SchedOp.enqueueOp ⟨1, ⟨[], [], 0⟩⟩], rfl⟩

end Sched
